import Mathlib

/-!
Verification of the tempo-influencer core services
(`src/server/src/services/hourCalculator.ts` and
`src/server/src/services/worklogDistributor.ts`) via a shallow embedding.

JavaScript numbers are modelled as exact rationals (`ℚ`); 32-bit integer
operations of the PRNG are modelled on `ℕ` with explicit reduction
modulo `2 ^ 32`; ISO dates are modelled as day numbers (`ℤ`) anchored so
that day `0` is a Sunday, which makes `getDay` the remainder modulo 7.
-/

set_option allowUnsafeReducibility true
attribute [semireducible] Rat.mul Rat.add Rat.sub Rat.neg Rat.div Rat.inv Rat.ofScientific

/-- JavaScript `Math.round`: round half toward positive infinity. -/
def jsRound (x : ℚ) : ℤ := ⌊x + 1 / 2⌋

/-- `snapToHalf` from both services: `Math.round(value / 0.5) * 0.5`. -/
def snapToHalf (v : ℚ) : ℚ := (jsRound (v / (1 / 2)) : ℚ) * (1 / 2)

/-- The distributor's remainder hygiene: `Math.round(x * 100) / 100`. -/
def round2 (x : ℚ) : ℚ := (jsRound (x * 100) : ℚ) / 100

/-- `2 ^ 32`, the modulus of all JavaScript 32-bit bit operations. -/
def m32 : ℕ := 4294967296

/-- JavaScript `Math.imul`: 32-bit multiplication (agrees with signed
multiplication modulo `2 ^ 32`). -/
def imul32 (a b : ℕ) : ℕ := a * b % m32

/-- One step of the mulberry32 generator from `worklogDistributor.ts`.
The closure's captured variable `s` becomes explicit state; the result
is the new state together with the produced value in `[0, 1)`. -/
def mulberryNext (s : ℕ) : ℕ × ℚ :=
  let s1 := (s + 0x6d2b79f5) % m32
  let t1 := imul32 (Nat.xor s1 (s1 >>> 15)) (s1 ||| 1)
  let t2 := Nat.xor t1 ((t1 + imul32 (Nat.xor t1 (t1 >>> 7)) (t1 ||| 61)) % m32)
  let u := Nat.xor t2 (t2 >>> 14)
  (s1, (u : ℚ) / (m32 : ℚ))

/-- Swap two positions of a list of day numbers (used by the shuffle). -/
def listSwap (l : List ℤ) (i j : ℕ) : List ℤ :=
  let vi := l.getD i 0
  let vj := l.getD j 0
  (l.set i vj).set j vi

/-- The descending loop of `fisherYatesShuffle`: the argument `i` is the
current swap index, counting down to `1`. -/
def fyAux : List ℤ → ℕ → ℕ → List ℤ × ℕ
  | l, s, 0 => (l, s)
  | l, s, i + 1 =>
    let p := mulberryNext s
    let j := (p.2 * ((i : ℚ) + 2)).floor.toNat
    fyAux (listSwap l (i + 1) j) p.1 i

/-- `fisherYatesShuffle` from `worklogDistributor.ts`, with the PRNG state
threaded explicitly.  Swaps run for `i = length - 1, …, 1` with
`j = ⌊rand() * (i + 1)⌋`. -/
def fisherYatesShuffle (l : List ℤ) (s : ℕ) : List ℤ × ℕ :=
  fyAux l s (l.length - 1)

/-- JavaScript `getDay` on our day numbering: day `0` is a Sunday, so the
weekday index (0 = Sunday, …, 6 = Saturday) is the remainder modulo 7. -/
def getDay (d : ℤ) : ℤ := d % 7

/-- `getWeekKey` from `worklogDistributor.ts`: the Monday of the week of
`d` (the formatted string key is represented by the Monday itself). -/
def weekKey (d : ℤ) : ℤ :=
  let dow := getDay d
  d + (if dow = 0 then -6 else 1 - dow)

/-- `eachDayOfInterval`: all days from `lo` to `hi` inclusive (the source
throws on an inverted interval; every claim assumes `to ≥ from`). -/
def dateRange (lo hi : ℤ) : List ℤ :=
  (List.range (1 + (hi - lo).toNat)).map fun k => lo + (k : ℤ)

/-- Insertion into a sorted list of day numbers. -/
def insertSorted (x : ℤ) : List ℤ → List ℤ
  | [] => [x]
  | y :: ys => if x ≤ y then x :: y :: ys else y :: insertSorted x ys

/-- JavaScript `.sort()` on date strings, i.e. ascending order of the
underlying day numbers (the sorted lists here have pairwise-distinct
entries, so every correct sort yields this same result). -/
def sortInts (l : List ℤ) : List ℤ := l.foldr insertSorted []

/-- Step 1 of `distributeWorklogs`: the working days (Mon–Fri) of the
interval, in chronological order. -/
def workingDaysBetween (lo hi : ℤ) : List ℤ :=
  (dateRange lo hi).filter fun d => decide (getDay d ≠ 0) && decide (getDay d ≠ 6)

/-- A JavaScript `string | number` identifier (role ids and issue ids). -/
inductive JsId where
  | str (s : String)
  | num (n : ℤ)
deriving DecidableEq, Repr

/-! ## Hour allocator (`hourCalculator.ts`) -/

/-- `RoleInput` from `hourCalculator.ts`. -/
structure RoleInput where
  roleId : JsId
  roleName : String
  billingRate : ℚ
  memberCount : ℚ
deriving DecidableEq, Repr

/-- `RoleOutput` from `hourCalculator.ts` (`RoleInput` plus the computed
fields, flattened). -/
structure RoleOutput where
  roleId : JsId
  roleName : String
  billingRate : ℚ
  memberCount : ℚ
  hoursPerMember : ℚ
  totalHours : ℚ
  revenueContribution : ℚ
deriving DecidableEq, Repr

/-- `HourCalculatorInput` from `hourCalculator.ts`. -/
structure HourCalculatorInput where
  targetRevenue : ℚ
  currentRevenue : ℚ
  roles : List RoleInput
deriving DecidableEq, Repr

/-- `HourCalculatorOutput` from `hourCalculator.ts`. -/
structure HourCalculatorOutput where
  roles : List RoleOutput
  totalDeltaRevenue : ℚ
  achievedRevenue : ℚ
deriving DecidableEq, Repr

/-- `totalWeight`: `roles.reduce((sum, r) => sum + r.billingRate * r.memberCount, 0)`. -/
def totalWeight (roles : List RoleInput) : ℚ :=
  roles.foldl (fun s r => s + r.billingRate * r.memberCount) 0

/-- The body of the `roles.map` in `calculateHours`: proportional
allocation with half-hour snapping, or all-zero when the total weight or
the role's own rate is zero. -/
def initRole (deltaRevenue tw : ℚ) (role : RoleInput) : RoleOutput :=
  if tw = 0 ∨ role.billingRate = 0 then
    ⟨role.roleId, role.roleName, role.billingRate, role.memberCount, 0, 0, 0⟩
  else
    let roleRevenue := deltaRevenue * ((role.billingRate * role.memberCount) / tw)
    let rawHoursTotal := roleRevenue / role.billingRate
    let roundedTotal := snapToHalf rawHoursTotal
    let hoursPerMember :=
      if 0 < role.memberCount then snapToHalf (roundedTotal / role.memberCount) else 0
    ⟨role.roleId, role.roleName, role.billingRate, role.memberCount, hoursPerMember,
      hoursPerMember * role.memberCount,
      hoursPerMember * role.memberCount * role.billingRate⟩

/-- `roleOutputs.reduce((sum, r) => sum + r.revenueContribution, 0)`. -/
def contribSum (rs : List RoleOutput) : ℚ := (rs.map (·.revenueContribution)).sum

/-- The candidate revenue total evaluated inside the reconciliation loop
for adjusting role `r` by `adj` hours per member. -/
def candAchieved (achieved : ℚ) (r : RoleOutput) (adj : ℚ) : ℚ :=
  achieved - r.revenueContribution + (r.hoursPerMember + adj) * r.memberCount * r.billingRate

/-- One candidate test of the reconciliation search (`for (const adj of
[-0.5, 0.5])` body): skip if the adjusted hours would be negative,
otherwise take the candidate when it strictly improves the best error
`p.1` seen so far. -/
def tryAdj (delta achieved : ℚ) (r : RoleOutput) (i : ℕ) (adj : ℚ)
    (p : ℚ × Option (ℕ × ℚ)) : ℚ × Option (ℕ × ℚ) :=
  if r.hoursPerMember + adj < 0 then p
  else
    let ne := |candAchieved achieved r adj - delta|
    if ne < p.1 then (ne, some (i, adj)) else p

/-- The inner `for` loops of the reconciliation pass: scan the remaining
roles (current index `i`), trying `adj = -0.5` then `adj = 0.5` for each
role with a non-zero rate, keeping the strictly best error seen so far. -/
def findBestGo (delta achieved : ℚ) :
    List RoleOutput → ℕ → ℚ × Option (ℕ × ℚ) → Option (ℕ × ℚ)
  | [], _, p => p.2
  | r :: rest, i, p =>
    if r.billingRate = 0 then findBestGo delta achieved rest (i + 1) p
    else
      findBestGo delta achieved rest (i + 1)
        (tryAdj delta achieved r i (1 / 2) (tryAdj delta achieved r i (-(1 / 2)) p))

/-- One search of the reconciliation loop: the best strictly improving
`±0.5`-hour adjustment, if any (`none` means the loop exits). -/
def findBest (delta achieved : ℚ) (rs : List RoleOutput) : Option (ℕ × ℚ) :=
  findBestGo delta achieved rs 0 (|achieved - delta|, none)

/-- A sound candidate of the reconciliation search: an in-range role with
non-zero rate, a `±0.5` adjustment keeping hours non-negative, whose
resulting error is strictly below `e0`. -/
def GoodCand (delta achieved e0 : ℚ) (rs0 : List RoleOutput) (j : ℕ) (adj : ℚ) : Prop :=
  ∃ r, rs0[j]? = some r ∧ r.billingRate ≠ 0 ∧ (adj = -(1 / 2) ∨ adj = 1 / 2) ∧
    ¬(r.hoursPerMember + adj < 0) ∧ |candAchieved achieved r adj - delta| < e0

/-- Invariant of the search state: the best error so far is at most the
initial error `e0`, and any stored candidate is sound. -/
def PairOK (delta achieved e0 : ℚ) (rs0 : List RoleOutput) (p : ℚ × Option (ℕ × ℚ)) : Prop :=
  p.1 ≤ e0 ∧ ∀ j adj, p.2 = some (j, adj) → GoodCand delta achieved e0 rs0 j adj

/-- Applying the chosen adjustment: update `hoursPerMember` and the two
derived fields of role `i`, exactly as the loop body does. -/
def applyBest (rs : List RoleOutput) (i : ℕ) (adj : ℚ) : List RoleOutput :=
  match rs[i]? with
  | none => rs
  | some r =>
    rs.set i
      ⟨r.roleId, r.roleName, r.billingRate, r.memberCount, r.hoursPerMember + adj,
        (r.hoursPerMember + adj) * r.memberCount,
        (r.hoursPerMember + adj) * r.memberCount * r.billingRate⟩

/-- One iteration of `while (improved)`: find the best improving
adjustment; if none exists the state is returned unchanged, otherwise the
adjustment is applied and `achievedDelta` is recomputed. -/
def reconcileStep (delta : ℚ) (p : List RoleOutput × ℚ) : List RoleOutput × ℚ :=
  match findBest delta p.2 p.1 with
  | none => p
  | some (i, adj) =>
    let rs := applyBest p.1 i adj
    (rs, contribSum rs)

/-- The reconciliation loop with an explicit iteration budget.  The budget
chosen in `calculateHours` is proved sufficient (the returned state admits
no improving adjustment), so this equals the source's unbounded
`while (improved)` loop. -/
def reconcileFuel (delta : ℚ) : ℕ → List RoleOutput × ℚ → List RoleOutput × ℚ
  | 0, p => p
  | n + 1, p =>
    match findBest delta p.2 p.1 with
    | none => p
    | some (i, adj) =>
      let rs := applyBest p.1 i adj
      reconcileFuel delta n (rs, contribSum rs)

/-- A common positive denominator for every value the reconciliation
error `|achievedDelta - deltaRevenue|` can take: twice the lcm of the
denominators of `deltaRevenue` and of each role's
`memberCount * billingRate`. -/
def errDen (delta : ℚ) (rs : List RoleOutput) : ℕ :=
  2 * rs.foldl (fun n r => Nat.lcm n (r.memberCount * r.billingRate).den) delta.den

/-- The termination measure of the reconciliation loop: the error scaled
to an integer.  It strictly decreases at every applied adjustment. -/
def errMeasure (delta : ℚ) (rs : List RoleOutput) (achieved : ℚ) : ℕ :=
  ((|achieved - delta|) * (errDen delta rs : ℚ)).num.toNat

/-- The state entering the reconciliation loop: the proportionally
allocated roles and their revenue total. -/
def initState (input : HourCalculatorInput) : List RoleOutput × ℚ :=
  let delta := input.targetRevenue - input.currentRevenue
  let tw := totalWeight input.roles
  let rs := input.roles.map (initRole delta tw)
  (rs, contribSum rs)

/-- The state in which the reconciliation loop exits (the budget
`errMeasure + 1` is proved sufficient, see the termination theorem). -/
def finalState (input : HourCalculatorInput) : List RoleOutput × ℚ :=
  let delta := input.targetRevenue - input.currentRevenue
  let p0 := initState input
  reconcileFuel delta (errMeasure delta p0.1 p0.2 + 1) p0

/-- `calculateHours` from `hourCalculator.ts`. -/
def calculateHours (input : HourCalculatorInput) : HourCalculatorOutput :=
  let p := finalState input
  { roles := p.1, totalDeltaRevenue := p.2,
    achievedRevenue := input.currentRevenue + p.2 }

/-! ## Calendar distributor (`worklogDistributor.ts`) -/

/-- The `author` field of a Tempo worklog. -/
structure WorklogAuthor where
  accountId : String
deriving DecidableEq, Repr

/-- The fields of `TempoWorklog` that `distributeWorklogs` reads. -/
structure TempoWorklog where
  author : WorklogAuthor
  startDate : ℤ
  timeSpentSeconds : ℚ
deriving DecidableEq, Repr

/-- `Assignment` from `worklogDistributor.ts`. -/
structure Assignment where
  accountId : String
  issueId : JsId
  totalHours : ℚ
deriving DecidableEq, Repr

/-- `DistributorInput` from `worklogDistributor.ts`; `seed = none` models
an omitted seed (the source then falls back to `Date.now()`). -/
structure DistributorInput where
  assignments : List Assignment
  dFrom : ℤ
  dTo : ℤ
  existingWorklogs : List TempoWorklog
  seed : Option ℤ
deriving DecidableEq, Repr

/-- `ScheduleEntry` from `worklogDistributor.ts`. -/
structure ScheduleEntry where
  accountId : String
  issueId : JsId
  date : ℤ
  hours : ℚ
  overflow : Bool
deriving DecidableEq, Repr

/-- `CreateWorklogBody` as filled in by step 4 of `distributeWorklogs`. -/
structure CreateWorklogBody where
  issueId : JsId
  authorAccountId : String
  startDate : ℤ
  startTime : String
  timeSpentSeconds : ℤ
  billableSeconds : ℤ
deriving DecidableEq, Repr

/-- `DistributorOutput` from `worklogDistributor.ts`. -/
structure DistributorOutput where
  schedule : List ScheduleEntry
  worklogBodies : List CreateWorklogBody
deriving DecidableEq, Repr

/-- The capacity map `capacityMap[accountId][date]`; `none` models an
absent key (read back as the default of 8 hours). -/
def CapMap : Type := String → ℤ → Option ℚ

/-- The empty capacity map. -/
def emptyCap : CapMap := fun _ _ => none

/-- `capacityMap[accountId][date] = v`. -/
def updCap (m : CapMap) (acc : String) (d : ℤ) (v : ℚ) : CapMap :=
  fun a e => if a = acc ∧ e = d then some v else m a e

/-- Building the capacity map from the existing worklogs:
`capacityMap[acc][date] = (capacityMap[acc][date] ?? 8) - hours`, clamped
to `0` from below after each worklog. -/
def buildCapacity (wls : List TempoWorklog) : CapMap :=
  wls.foldl
    (fun m wl =>
      let acc := wl.author.accountId
      let hours := wl.timeSpentSeconds / 3600
      let v := (m acc wl.startDate).getD 8 - hours
      updCap m acc wl.startDate (if v < 0 then 0 else v))
    emptyCap

/-- The mutable state of one `distributeWorklogs` call: the capacity map,
the schedule built so far, and the PRNG state. -/
structure DState where
  cap : CapMap
  sched : List ScheduleEntry
  rng : ℕ

/-- `capacityMap[acc][d] ?? 8`. -/
def capOf (st : DState) (acc : String) (d : ℤ) : ℚ := (st.cap acc d).getD 8

/-- Committing `toLog` hours to a day: push a non-overflow entry and
decrement the day's capacity (`c` is the day's capacity before). -/
def pushPlace (st : DState) (acc : String) (issue : JsId) (d : ℤ) (c toLog : ℚ) : DState :=
  { cap := updCap st.cap acc d (c - toLog),
    sched := st.sched ++ [⟨acc, issue, d, toLog, false⟩],
    rng := st.rng }

/-- Pushing an overflow entry (capacity is deliberately not updated). -/
def pushOverflow (st : DState) (acc : String) (issue : JsId) (d : ℤ) (h : ℚ) : DState :=
  { st with sched := st.sched ++ [⟨acc, issue, d, h, true⟩] }

/-- The shared shape of steps 6 and 7 (greedy fallback sweep over a list
of days): skip exhausted days, otherwise log
`snapToHalf(min(currentCap, remaining))` and round the remainder to two
decimals.  The `remaining ≤ 0` guard models the loop's `break`. -/
def sweepDays (acc : String) (issue : JsId) : List ℤ → DState → ℚ → DState × ℚ
  | [], st, rem => (st, rem)
  | d :: rest, st, rem =>
    if rem ≤ 0 then (st, rem)
    else
      let c := capOf st acc d
      if c ≤ 0 then sweepDays acc issue rest st rem
      else
        let toLog := snapToHalf (min c rem)
        if toLog ≤ 0 then sweepDays acc issue rest st rem
        else sweepDays acc issue rest (pushPlace st acc issue d c toLog) (round2 (rem - toLog))

/-- Step 5: the loop over `pickedDays`.  On the last picked day, or when
the remainder is at most one hour, the whole remainder (capped by the
day's capacity) is logged; otherwise a random 20–80% fraction of the
remainder (with a 1-hour floor) is logged. -/
def pickedLoop (acc : String) (issue : JsId) : List ℤ → DState → ℚ → DState × ℚ
  | [], st, rem => (st, rem)
  | d :: rest, st, rem =>
    if rem ≤ 0 then (st, rem)
    else
      let c := capOf st acc d
      if c ≤ 0 then pickedLoop acc issue rest st rem
      else if rest.isEmpty || decide (rem ≤ 1) then
        let toLog := snapToHalf (min c rem)
        if toLog ≤ 0 then pickedLoop acc issue rest st rem
        else pickedLoop acc issue rest (pushPlace st acc issue d c toLog) (round2 (rem - toLog))
      else
        let p := mulberryNext st.rng
        let fraction := 1 / 5 + p.2 * (3 / 5)
        let desired := max 1 (rem * fraction)
        let toLog := snapToHalf (min c desired)
        let stR : DState := { st with rng := p.1 }
        if toLog ≤ 0 then pickedLoop acc issue rest stR rem
        else pickedLoop acc issue rest (pushPlace stR acc issue d c toLog) (round2 (rem - toLog))

/-- The shared `if (remaining > 0) { shuffle; greedy sweep }` pattern of
step 6 (extra good days) and step 7 (tiny days). -/
def shuffleSweepPhase (acc : String) (issue : JsId) (days : List ℤ) (p : DState × ℚ) :
    DState × ℚ :=
  if 0 < p.2 then
    let pS := fisherYatesShuffle days p.1.rng
    sweepDays acc issue pS.1 { p.1 with rng := pS.2 } p.2
  else p

/-- `overflowDays[0] ?? workingDays[0]`: the head of the filtered
shuffle, or the first business day, or nothing. -/
def targetDayFor (overflowDays workingDays : List ℤ) : Option ℤ :=
  match overflowDays with
  | [] => workingDays.head?
  | d :: _ => some d

/-- Step 8: if hours remain, push one overflow entry on the first
randomly-ordered day with non-negative tracked capacity (or the first
business day); the capacity map is not updated. -/
def overflowPhase (acc : String) (issue : JsId) (workingDays : List ℤ) (p : DState × ℚ) :
    DState :=
  if 0 < p.2 then
    let pAll := fisherYatesShuffle workingDays p.1.rng
    let st3 : DState := { p.1 with rng := pAll.2 }
    let overflowDays := pAll.1.filter fun d => decide (0 ≤ capOf st3 acc d)
    match targetDayFor overflowDays workingDays with
    | none => st3
    | some d => pushOverflow st3 acc issue d p.2
  else p.1

/-- Steps 2–6 for one assignment when good days (capacity ≥ 1h) exist:
group the good days by week, pick a biased-random number of weeks, place
hours over the picked weeks' days, then greedily sweep the remaining good
days outside the picked weeks. -/
def goodPhase (acc : String) (issue : JsId) (totalHours : ℚ) (goodDays : List ℤ)
    (st : DState) : DState × ℚ :=
  let goodWeeks := sortInts (goodDays.map weekKey).dedup
  let weekCap := fun wk =>
    (((goodDays.filter fun d => decide (weekKey d = wk)).map fun d => capOf st acc d)).sum
  let caps := goodWeeks.map weekCap
  let maxWeekCap := match caps with | [] => 0 | c :: cs => cs.foldl max c
  let minWeeks : ℤ := max 1 ⌈totalHours / maxWeekCap⌉
  let maxWeeks : ℤ := min (goodWeeks.length : ℤ) 3
  let pA := mulberryNext st.rng
  let pB := mulberryNext pA.1
  let t := pA.2 * pB.2
  let mm : ℤ := max minWeeks maxWeeks
  let numTargetWeeks : ℤ :=
    max minWeeks (min mm (jsRound ((minWeeks : ℚ) + t * ((mm : ℚ) - (minWeeks : ℚ)))))
  let pW := fisherYatesShuffle goodWeeks pB.1
  let pickedWeeks := pW.1.take numTargetWeeks.toNat
  let pickedDays := sortInts (goodDays.filter fun d => pickedWeeks.contains (weekKey d))
  shuffleSweepPhase acc issue (goodDays.filter fun d => !pickedWeeks.contains (weekKey d))
    (pickedLoop acc issue pickedDays { st with rng := pW.2 } totalHours)

/-- Step 3 onward for a single assignment (the body of the `for` loop of
`distributeWorklogs`): skip non-positive assignments, overflow at once if
every day is at capacity, otherwise run the good-day phase, the tiny-day
fallback and the final overflow step. -/
def processAssignment (workingDays : List ℤ) (st : DState) (a : Assignment) : DState :=
  if a.totalHours ≤ 0 then st
  else
    let acc := a.accountId
    let goodDays := workingDays.filter fun d => decide (1 ≤ capOf st acc d)
    let tinyDays :=
      workingDays.filter fun d => decide (0 < capOf st acc d) && decide (capOf st acc d < 1)
    if goodDays.isEmpty && tinyDays.isEmpty then
      match workingDays with
      | [] => st
      | d :: _ => pushOverflow st acc a.issueId d a.totalHours
    else
      overflowPhase acc a.issueId workingDays
        (shuffleSweepPhase acc a.issueId tinyDays
          (if goodDays.isEmpty then (st, a.totalHours)
          else goodPhase acc a.issueId a.totalHours goodDays st))

/-- JavaScript `seed >>> 0` (`ToUint32` on an integral value). -/
def toUint32 (z : ℤ) : ℕ := (z % (m32 : ℤ)).toNat

/-- The whole distribution loop: working days, initial capacity map, one
PRNG seeded once, then the assignments in order. -/
def distributeCore (seed : ℤ) (assignments : List Assignment) (lo hi : ℤ)
    (wls : List TempoWorklog) : DState :=
  assignments.foldl (processAssignment (workingDaysBetween lo hi))
    ⟨buildCapacity wls, [], toUint32 seed⟩

/-- Step 4: a `CreateWorklogBody` from a schedule entry. -/
def entryBody (e : ScheduleEntry) : CreateWorklogBody :=
  ⟨e.issueId, e.accountId, e.date, "09:00:00", jsRound (e.hours * 3600),
    jsRound (e.hours * 3600)⟩

/-- `distributeWorklogs` from `worklogDistributor.ts`.  The ambient clock
`Date.now()` is an explicit parameter `now`, used only when the input
carries no seed. -/
def distributeWorklogs (now : ℤ) (input : DistributorInput) : DistributorOutput :=
  let final :=
    distributeCore (input.seed.getD now) input.assignments input.dFrom input.dTo
      input.existingWorklogs
  { schedule := final.sched, worklogBodies := final.sched.map entryBody }

/-! ## Predicates and quantities used by the specification claims -/

/-- `q` is an integer. -/
def IsInt (q : ℚ) : Prop := ∃ z : ℤ, q = (z : ℚ)

/-- `q` is an exact multiple of half an hour. -/
def HalfInt (q : ℚ) : Prop := ∃ z : ℤ, q = (z : ℚ) / 2

instance (q : ℚ) : Decidable (IsInt q) :=
  decidable_of_iff (q.den = 1)
    (by
      constructor
      · intro h
        exact ⟨q.num, ((Rat.den_eq_one_iff q).mp h).symm⟩
      · rintro ⟨z, rfl⟩
        exact Rat.den_intCast z)

instance (q : ℚ) : Decidable (HalfInt q) :=
  decidable_of_iff ((q * 2).den = 1)
    (by
      constructor
      · intro h
        refine ⟨(q * 2).num, ?_⟩
        have h2 := (Rat.den_eq_one_iff (q * 2)).mp h
        field_simp
        linarith
      · rintro ⟨z, rfl⟩
        have h2 : (z : ℚ) / 2 * 2 = (z : ℚ) := by field_simp
        rw [h2]
        exact Rat.den_intCast z)

/-- The hours already logged, per the existing-worklog snapshot, for an
account on a date (`timeSpentSeconds / 3600`, summed). -/
def existingHoursFor (wls : List TempoWorklog) (acc : String) (d : ℤ) : ℚ :=
  ((wls.filter fun wl => decide (wl.author.accountId = acc) && decide (wl.startDate = d)).map
    fun wl => wl.timeSpentSeconds / 3600).sum

/-- The hours of the non-overflow schedule entries of one account/date. -/
def placedSum (sched : List ScheduleEntry) (acc : String) (d : ℤ) : ℚ :=
  ((sched.filter fun e =>
      decide (e.accountId = acc) && decide (e.date = d) && (e.overflow == false)).map
    fun e => e.hours).sum

/-! ## Concrete inputs used by counterexamples and witnesses

Day numbers are anchored so that day 0 is a Sunday; day 1 is a Monday,
day 2 a Tuesday, day 6 a Saturday. -/

/-- One Monday, 5.7 h (20520 s) already logged, one 2.5 h assignment:
the day's remaining capacity is 2.3 h and `snapToHalf` rounds it up. -/
def cxCapacityInput : DistributorInput :=
  ⟨[⟨"a", .num 7, 5 / 2⟩], 1, 1, [⟨⟨"a"⟩, 1, 20520⟩], some 1⟩

/-- A single Saturday with a positive assignment: no business days. -/
def cxWeekendInput : DistributorInput := ⟨[⟨"a", .num 7, 4⟩], 6, 6, [], some 1⟩

/-- Monday (full capacity) and Tuesday (1 h left), one 8 h assignment:
with seed 1 the run ends in an overflow entry while Monday still has
remaining capacity. -/
def cxOverflowInput : DistributorInput :=
  ⟨[⟨"a", .num 7, 8⟩], 1, 2, [⟨⟨"a"⟩, 2, 25200⟩], some 1⟩

/-- A negative revenue delta: target 0, current 1000, one paid role. -/
def cxNegativeDeltaInput : HourCalculatorInput := ⟨0, 1000, [⟨.num 1, "r", 100, 1⟩]⟩

/-- The worked scenario from the specification: target 10000, current
8000, one role with rate 100 and two members. -/
def scenarioInput : HourCalculatorInput := ⟨10000, 8000, [⟨.num 1, "dev", 100, 2⟩]⟩

/-- A small distribution: one Monday, no existing worklogs, one 4 h
assignment, explicit seed 42. -/
def sampleDistInput : DistributorInput := ⟨[⟨"a", .num 7, 4⟩], 1, 1, [], some 42⟩

/-- A distribution state whose only business day (Monday, day 1) is fully
booked (8 h = 28800 s already logged). -/
def wAtCapacityState : DState := ⟨buildCapacity [⟨⟨"a"⟩, 1, 28800⟩], [], 1⟩

/-- A 3-hour assignment for the fully booked member. -/
def wAtCapacityAssignment : Assignment := ⟨"a", .num 7, 3⟩

/-! ## Invariants and relations used in the proofs -/

/-- The reconciliation-loop invariant: the running total is the sum of
the contributions, and every role's derived fields are in sync with its
half-integer `hoursPerMember`. -/
def RecOk (rs : List RoleOutput) (achieved : ℚ) : Prop :=
  achieved = contribSum rs ∧
  ∀ r ∈ rs, HalfInt r.hoursPerMember ∧ r.totalHours = r.hoursPerMember * r.memberCount ∧
    r.revenueContribution = r.hoursPerMember * r.memberCount * r.billingRate

/-- The allocator output matches the input roles positionally on the four
copied fields. -/
def MatchesInput (rin : List RoleInput) (rs : List RoleOutput) : Prop :=
  rs.length = rin.length ∧
  ∀ (k : ℕ) (h1 : k < rs.length) (h2 : k < rin.length),
    (rs.get ⟨k, h1⟩).roleId = (rin.get ⟨k, h2⟩).roleId ∧
    (rs.get ⟨k, h1⟩).roleName = (rin.get ⟨k, h2⟩).roleName ∧
    (rs.get ⟨k, h1⟩).billingRate = (rin.get ⟨k, h2⟩).billingRate ∧
    (rs.get ⟨k, h1⟩).memberCount = (rin.get ⟨k, h2⟩).memberCount

/-- The distributor capacity invariant with respect to the existing
worklogs: every capacity cell is non-negative and a half-hour multiple,
and — once a cell is below 8 or has received entries — the accounting
equation `existing + placed = 8 - capacity` holds; non-overflow entries
have positive hours. -/
def CapInv (wls : List TempoWorklog) (st : DState) : Prop :=
  (∀ acc d, 0 ≤ capOf st acc d ∧ HalfInt (capOf st acc d) ∧
    ((0 < capOf st acc d ∨ placedSum st.sched acc d ≠ 0) →
      existingHoursFor wls acc d + placedSum st.sched acc d = 8 - capOf st acc d)) ∧
  ∀ e ∈ st.sched, e.overflow = false → 0 < e.hours

/-- Every schedule entry has half-hour-multiple hours. -/
def HalfSched (st : DState) : Prop := ∀ e ∈ st.sched, HalfInt e.hours

/-- A relation is a `StepRel` for an account/issue pair when it is
reflexive, transitive, and compatible with the three primitive state
changes of the distribution loops: a pure PRNG advance, a capacity-capped
snapped placement, and an overflow push of the current remainder. -/
def StepRel (acc : String) (issue : JsId) (R : DState → ℚ → DState → ℚ → Prop) : Prop :=
  (∀ st rem, R st rem st rem) ∧
  (∀ s1 r1 s2 r2 s3 r3, R s1 r1 s2 r2 → R s2 r2 s3 r3 → R s1 r1 s3 r3) ∧
  (∀ st rem g, R st rem { st with rng := g } rem) ∧
  (∀ st rem d c x, c = capOf st acc d → 0 < c → 0 < snapToHalf (min c x) →
    R st rem (pushPlace st acc issue d c (snapToHalf (min c x)))
      (round2 (rem - snapToHalf (min c x)))) ∧
  (∀ st rem d, R st rem (pushOverflow st acc issue d rem) rem)

/-- Monotone growth of the schedule, with strict growth whenever the
remainder changed (used for the at-least-one-entry claim). -/
def relProg : DState → ℚ → DState → ℚ → Prop := fun st rem st2 rem2 =>
  st.sched.length ≤ st2.sched.length ∧ (rem2 ≠ rem → st.sched.length < st2.sched.length)

/-- Preservation of half-hour hours (schedule and remainder). -/
def relHalf : DState → ℚ → DState → ℚ → Prop := fun st rem st2 rem2 =>
  HalfSched st ∧ HalfInt rem → HalfSched st2 ∧ HalfInt rem2

/-- Preservation of the capacity invariant. -/
def relCap (wls : List TempoWorklog) : DState → ℚ → DState → ℚ → Prop := fun st _ st2 _ =>
  CapInv wls st → CapInv wls st2

/-! ## Arithmetic lemmas about the JavaScript numeric helpers -/

theorem jsRound_intCast (z : ℤ) : jsRound (z : ℚ) = z := by
  rw [jsRound, Int.floor_int_add]
  have h : ⌊(1 / 2 : ℚ)⌋ = 0 := by decide
  rw [h, add_zero]

theorem jsRound_mono {x y : ℚ} (h : x ≤ y) : jsRound x ≤ jsRound y :=
  Int.floor_le_floor (by linarith)

theorem halfInt_snapToHalf (v : ℚ) : HalfInt (snapToHalf v) :=
  ⟨jsRound (v / (1 / 2)), by rw [snapToHalf]; ring⟩

theorem snapToHalf_of_halfInt {v : ℚ} (h : HalfInt v) : snapToHalf v = v := by
  obtain ⟨z, rfl⟩ := h
  rw [snapToHalf]
  have h1 : (z : ℚ) / 2 / (1 / 2) = (z : ℚ) := by ring
  rw [h1, jsRound_intCast]
  ring

theorem snapToHalf_mono {v w : ℚ} (h : v ≤ w) : snapToHalf v ≤ snapToHalf w := by
  rw [snapToHalf, snapToHalf]
  have h1 := @jsRound_mono (v / (1 / 2)) (w / (1 / 2)) (by linarith)
  have h2 : ((jsRound (v / (1 / 2)) : ℤ) : ℚ) ≤ ((jsRound (w / (1 / 2)) : ℤ) : ℚ) := by
    exact_mod_cast h1
  linarith

theorem snapToHalf_zero : snapToHalf 0 = 0 := by decide

theorem snapToHalf_nonneg {v : ℚ} (h : 0 ≤ v) : 0 ≤ snapToHalf v := by
  have h1 := snapToHalf_mono h
  rwa [snapToHalf_zero] at h1

theorem halfInt_zero : HalfInt 0 := ⟨0, by norm_num⟩

theorem halfInt_add {a b : ℚ} (ha : HalfInt a) (hb : HalfInt b) : HalfInt (a + b) := by
  obtain ⟨x, rfl⟩ := ha
  obtain ⟨y, rfl⟩ := hb
  exact ⟨x + y, by push_cast; ring⟩

theorem halfInt_sub {a b : ℚ} (ha : HalfInt a) (hb : HalfInt b) : HalfInt (a - b) := by
  obtain ⟨x, rfl⟩ := ha
  obtain ⟨y, rfl⟩ := hb
  exact ⟨x - y, by push_cast; ring⟩

theorem halfInt_intCast (z : ℤ) : HalfInt (z : ℚ) := ⟨2 * z, by push_cast; ring⟩

theorem halfInt_eight : HalfInt 8 := ⟨16, by norm_num⟩

theorem round2_of_halfInt {x : ℚ} (h : HalfInt x) : round2 x = x := by
  obtain ⟨z, rfl⟩ := h
  rw [round2]
  have h1 : (z : ℚ) / 2 * 100 = ((50 * z : ℤ) : ℚ) := by push_cast; ring
  rw [h1, jsRound_intCast]
  push_cast
  ring

theorem isInt_intCast (z : ℤ) : IsInt (z : ℚ) := ⟨z, rfl⟩

theorem isInt_add {a b : ℚ} (ha : IsInt a) (hb : IsInt b) : IsInt (a + b) := by
  obtain ⟨x, rfl⟩ := ha
  obtain ⟨y, rfl⟩ := hb
  exact ⟨x + y, by push_cast; ring⟩

theorem isInt_sub {a b : ℚ} (ha : IsInt a) (hb : IsInt b) : IsInt (a - b) := by
  obtain ⟨x, rfl⟩ := ha
  obtain ⟨y, rfl⟩ := hb
  exact ⟨x - y, by push_cast; ring⟩

theorem isInt_abs {a : ℚ} (ha : IsInt a) : IsInt |a| := by
  obtain ⟨x, rfl⟩ := ha
  exact ⟨|x|, by push_cast; ring⟩

theorem isInt_listSum {l : List ℚ} (h : ∀ x ∈ l, IsInt x) : IsInt l.sum := by
  induction l with
  | nil => exact ⟨0, by norm_num⟩
  | cons a t ih =>
    rw [List.sum_cons]
    exact isInt_add (h a (by simp)) (ih fun x hx => h x (by simp [hx]))

theorem isInt_mul_den_dvd {q : ℚ} {n : ℕ} (h : q.den ∣ n) : IsInt (q * (n : ℚ)) := by
  obtain ⟨k, hk⟩ := h
  refine ⟨q.num * k, ?_⟩
  subst hk
  have hden : ((q.den : ℚ)) ≠ 0 := by exact_mod_cast q.den_nz
  have hq : (q.num : ℚ) / (q.den : ℚ) * (q.den : ℚ) = (q.num : ℚ) := div_mul_cancel₀ _ hden
  rw [Rat.num_div_den q] at hq
  push_cast
  rw [← mul_assoc, hq]

theorem toNat_lt_of_isInt {a b : ℚ} (ha : IsInt a) (hb : IsInt b) (h0 : 0 ≤ a) (hab : a < b) :
    a.num.toNat < b.num.toNat := by
  obtain ⟨x, rfl⟩ := ha
  obtain ⟨y, rfl⟩ := hb
  rw [Rat.num_intCast, Rat.num_intCast]
  have hx : (0 : ℤ) ≤ x := by exact_mod_cast h0
  have hxy : x < y := by exact_mod_cast hab
  omega

/-! ## Allocator lemmas -/

theorem initRole_fields (d tw : ℚ) (r : RoleInput) :
    (initRole d tw r).roleId = r.roleId ∧ (initRole d tw r).roleName = r.roleName ∧
    (initRole d tw r).billingRate = r.billingRate ∧
    (initRole d tw r).memberCount = r.memberCount := by
  rw [initRole]
  split <;> exact ⟨rfl, rfl, rfl, rfl⟩

theorem initRole_halfInt (d tw : ℚ) (r : RoleInput) : HalfInt (initRole d tw r).hoursPerMember := by
  rw [initRole]
  split
  · exact halfInt_zero
  · simp only
    split
    · exact halfInt_snapToHalf _
    · exact halfInt_zero

theorem initRole_sync (d tw : ℚ) (r : RoleInput) :
    (initRole d tw r).totalHours =
        (initRole d tw r).hoursPerMember * (initRole d tw r).memberCount ∧
      (initRole d tw r).revenueContribution =
        (initRole d tw r).hoursPerMember * (initRole d tw r).memberCount *
          (initRole d tw r).billingRate := by
  rw [initRole]
  split
  · exact ⟨by simp, by simp⟩
  · exact ⟨rfl, rfl⟩

theorem recOk_initState (input : HourCalculatorInput) :
    RecOk (initState input).1 (initState input).2 := by
  refine ⟨rfl, ?_⟩
  intro r hr
  simp only [initState] at hr
  obtain ⟨r0, _, rfl⟩ := List.mem_map.mp hr
  exact ⟨initRole_halfInt _ _ _, (initRole_sync _ _ _).1, (initRole_sync _ _ _).2⟩

theorem drop_eq_cons {α : Type} {l : List α} {i : ℕ} {a : α} {t : List α}
    (h : l.drop i = a :: t) : l[i]? = some a ∧ l.drop (i + 1) = t := by
  constructor
  · have h0 := List.getElem?_drop l i 0
    rw [h] at h0
    simpa using h0.symm
  · have h1 : l.drop (i + 1) = (l.drop i).drop 1 := by rw [List.drop_drop]
    rw [h1, h]
    rfl

theorem tryAdj_ok {delta achieved e0 : ℚ} {rs0 : List RoleOutput} {i : ℕ} {r : RoleOutput}
    {adj : ℚ} {p : ℚ × Option (ℕ × ℚ)} (hmem : rs0[i]? = some r)
    (hrate : r.billingRate ≠ 0) (hadj : adj = -(1 / 2) ∨ adj = 1 / 2)
    (hp : PairOK delta achieved e0 rs0 p) :
    PairOK delta achieved e0 rs0 (tryAdj delta achieved r i adj p) := by
  rw [tryAdj]
  split
  · exact hp
  · rename_i hneg
    simp only
    split
    · rename_i himp
      refine ⟨le_of_lt (lt_of_lt_of_le himp hp.1), ?_⟩
      intro j adj2 hj
      injection hj with h
      cases h
      exact ⟨r, hmem, hrate, hadj, hneg, lt_of_lt_of_le himp hp.1⟩
    · exact hp

theorem findBestGo_ok {delta achieved e0 : ℚ} {rs0 : List RoleOutput} :
    ∀ (l : List RoleOutput) (i : ℕ) (p : ℚ × Option (ℕ × ℚ)), rs0.drop i = l →
      PairOK delta achieved e0 rs0 p → ∀ j adj,
        findBestGo delta achieved l i p = some (j, adj) →
          GoodCand delta achieved e0 rs0 j adj := by
  intro l
  induction l with
  | nil =>
    intro i p _ hp j adj h
    exact hp.2 j adj h
  | cons r rest ih =>
    intro i p hdrop hp j adj h
    obtain ⟨hget, hdrop2⟩ := drop_eq_cons hdrop
    rw [findBestGo] at h
    split at h
    · exact ih (i + 1) p hdrop2 hp j adj h
    · rename_i hrate
      exact ih (i + 1) _ hdrop2
        (tryAdj_ok hget hrate (Or.inr rfl)
          (tryAdj_ok hget hrate (Or.inl rfl) hp)) j adj h

theorem findBest_some {delta achieved : ℚ} {rs : List RoleOutput} {i : ℕ} {adj : ℚ}
    (h : findBest delta achieved rs = some (i, adj)) :
    GoodCand delta achieved (|achieved - delta|) rs i adj := by
  refine findBestGo_ok rs 0 (|achieved - delta|, none) rfl ⟨le_refl _, ?_⟩ i adj h
  intro j adj2 hj
  exact absurd hj (by simp)

theorem contribSum_set :
    ∀ (l : List RoleOutput) (i : ℕ) (x r : RoleOutput), l[i]? = some r →
      contribSum (l.set i x) =
        contribSum l - r.revenueContribution + x.revenueContribution := by
  intro l
  induction l with
  | nil => intro i x r h; simp at h
  | cons a t ih =>
    intro i x r h
    cases i with
    | zero =>
      simp only [List.getElem?_cons_zero, Option.some.injEq] at h
      subst h
      simp only [List.set_cons_zero, contribSum, List.map_cons, List.sum_cons]
      ring
    | succ n =>
      simp only [List.getElem?_cons_succ] at h
      simp only [List.set_cons_succ, contribSum, List.map_cons, List.sum_cons]
      have h2 := ih n x r h
      simp only [contribSum] at h2
      rw [h2]
      ring

theorem errDen_set {delta : ℚ} :
    ∀ (l : List RoleOutput) (i : ℕ) (x r : RoleOutput), l[i]? = some r →
      x.memberCount = r.memberCount → x.billingRate = r.billingRate →
      errDen delta (l.set i x) = errDen delta l := by
  have aux : ∀ (l : List RoleOutput) (i : ℕ) (x r : RoleOutput) (n0 : ℕ), l[i]? = some r →
      x.memberCount = r.memberCount → x.billingRate = r.billingRate →
      (l.set i x).foldl (fun n q => Nat.lcm n (q.memberCount * q.billingRate).den) n0 =
        l.foldl (fun n q => Nat.lcm n (q.memberCount * q.billingRate).den) n0 := by
    intro l
    induction l with
    | nil => intro i x r n0 h; simp at h
    | cons a t ih =>
      intro i x r n0 h hm hb
      cases i with
      | zero =>
        simp only [List.getElem?_cons_zero, Option.some.injEq] at h
        subst h
        simp only [List.set_cons_zero, List.foldl_cons, hm, hb]
      | succ n =>
        simp only [List.getElem?_cons_succ] at h
        simp only [List.set_cons_succ, List.foldl_cons]
        exact ih n x r _ h hm hb
  intro l i x r h hm hb
  rw [errDen, errDen, aux l i x r _ h hm hb]

theorem isInt_mul {a b : ℚ} (ha : IsInt a) (hb : IsInt b) : IsInt (a * b) := by
  obtain ⟨x, rfl⟩ := ha
  obtain ⟨y, rfl⟩ := hb
  exact ⟨x * y, by push_cast; ring⟩

theorem errDen_eq (delta : ℚ) (rs : List RoleOutput) :
    ∃ L : ℕ, errDen delta rs = 2 * L ∧ 0 < L ∧ delta.den ∣ L ∧
      ∀ r ∈ rs, (r.memberCount * r.billingRate).den ∣ L := by
  have aux : ∀ (l : List RoleOutput) (n0 : ℕ),
      (n0 ∣ l.foldl (fun n q => Nat.lcm n (q.memberCount * q.billingRate).den) n0) ∧
        ∀ r ∈ l, (r.memberCount * r.billingRate).den ∣
          l.foldl (fun n q => Nat.lcm n (q.memberCount * q.billingRate).den) n0 := by
    intro l
    induction l with
    | nil => intro n0; exact ⟨dvd_refl _, by simp⟩
    | cons a t ih =>
      intro n0
      simp only [List.foldl_cons]
      obtain ⟨ih1, ih2⟩ := ih (Nat.lcm n0 (a.memberCount * a.billingRate).den)
      refine ⟨dvd_trans (Nat.dvd_lcm_left _ _) ih1, ?_⟩
      intro r hr
      rcases List.mem_cons.mp hr with rfl | hr2
      · exact dvd_trans (Nat.dvd_lcm_right _ _) ih1
      · exact ih2 r hr2
  have auxpos : ∀ (l : List RoleOutput) (n0 : ℕ), 0 < n0 →
      0 < l.foldl (fun n q => Nat.lcm n (q.memberCount * q.billingRate).den) n0 := by
    intro l
    induction l with
    | nil => intro n0 h; exact h
    | cons a t ih =>
      intro n0 h
      simp only [List.foldl_cons]
      exact ih _ (Nat.lcm_pos h (a.memberCount * a.billingRate).den_pos)
  exact ⟨rs.foldl (fun n q => Nat.lcm n (q.memberCount * q.billingRate).den) delta.den,
    by rw [errDen], auxpos rs delta.den delta.den_pos, (aux rs delta.den).1,
    (aux rs delta.den).2⟩

theorem errDen_pos (delta : ℚ) (rs : List RoleOutput) : 0 < errDen delta rs := by
  obtain ⟨L, hL, hLpos, _, _⟩ := errDen_eq delta rs
  omega

theorem errInt {delta achieved : ℚ} {rs : List RoleOutput} (hok : RecOk rs achieved) :
    IsInt (|achieved - delta| * (errDen delta rs : ℚ)) := by
  obtain ⟨hsum, hfields⟩ := hok
  obtain ⟨L, hL, _, hdL, hwL⟩ := errDen_eq delta rs
  have habs : |achieved - delta| * (errDen delta rs : ℚ) =
      |(achieved - delta) * (errDen delta rs : ℚ)| := by
    rw [abs_mul, abs_of_nonneg (by positivity : (0 : ℚ) ≤ (errDen delta rs : ℚ))]
  rw [habs]
  refine isInt_abs ?_
  rw [hsum, hL, sub_mul]
  refine isInt_sub ?_ ?_
  · rw [contribSum, ← List.sum_map_mul_right]
    refine isInt_listSum ?_
    intro x hx
    obtain ⟨r, hr, rfl⟩ := List.mem_map.mp hx
    obtain ⟨⟨z, hz⟩, _, hcontrib⟩ := hfields r hr
    obtain ⟨y, hy⟩ := isInt_mul_den_dvd (hwL r hr)
    refine ⟨z * y, ?_⟩
    have hexp : r.revenueContribution * (((2 * L : ℕ) : ℚ)) =
        (z : ℚ) * (r.memberCount * r.billingRate * (L : ℚ)) := by
      rw [hcontrib, hz]
      push_cast
      ring
    rw [hexp, hy]
    push_cast
    ring
  · have hexp : delta * ((2 * L : ℕ) : ℚ) = delta * (L : ℚ) * 2 := by
      push_cast
      ring
    rw [hexp]
    exact isInt_mul (isInt_mul_den_dvd hdL) ⟨2, by norm_num⟩

theorem reconcile_applied {delta achieved : ℚ} {rs : List RoleOutput} {i : ℕ} {adj : ℚ}
    (hok : RecOk rs achieved) (h : findBest delta achieved rs = some (i, adj)) :
    RecOk (applyBest rs i adj) (contribSum (applyBest rs i adj)) ∧
      |contribSum (applyBest rs i adj) - delta| < |achieved - delta| ∧
      errDen delta (applyBest rs i adj) = errDen delta rs := by
  obtain ⟨r, hget, hrate, hadj, hneg, hlt⟩ := findBest_some h
  have happ : applyBest rs i adj =
      rs.set i
        ⟨r.roleId, r.roleName, r.billingRate, r.memberCount, r.hoursPerMember + adj,
          (r.hoursPerMember + adj) * r.memberCount,
          (r.hoursPerMember + adj) * r.memberCount * r.billingRate⟩ := by
    rw [applyBest, hget]
  have hcs := contribSum_set rs i
    ⟨r.roleId, r.roleName, r.billingRate, r.memberCount, r.hoursPerMember + adj,
      (r.hoursPerMember + adj) * r.memberCount,
      (r.hoursPerMember + adj) * r.memberCount * r.billingRate⟩ r hget
  have hcand : contribSum (applyBest rs i adj) = candAchieved achieved r adj := by
    rw [happ, hcs, candAchieved, ← hok.1]
  refine ⟨⟨rfl, ?_⟩, ?_, ?_⟩
  · intro x hx
    rw [happ] at hx
    rcases List.mem_or_eq_of_mem_set hx with hx2 | rfl
    · exact hok.2 x hx2
    · refine ⟨?_, rfl, rfl⟩
      have hhalf := (hok.2 r (List.getElem?_mem hget)).1
      rcases hadj with rfl | rfl
      · exact halfInt_add hhalf ⟨-1, by norm_num⟩
      · exact halfInt_add hhalf ⟨1, by norm_num⟩
  · rw [hcand]
    exact hlt
  · rw [happ]
    exact errDen_set rs i _ r hget rfl rfl

theorem errMeasure_lt {delta achieved : ℚ} {rs : List RoleOutput} {i : ℕ} {adj : ℚ}
    (hok : RecOk rs achieved) (h : findBest delta achieved rs = some (i, adj)) :
    errMeasure delta (applyBest rs i adj) (contribSum (applyBest rs i adj)) <
      errMeasure delta rs achieved := by
  obtain ⟨hok2, hlt, hden⟩ := reconcile_applied hok h
  have hint2 := @errInt delta _ _ hok2
  rw [hden] at hint2
  have hint1 := @errInt delta _ _ hok
  rw [errMeasure, errMeasure, hden]
  refine toNat_lt_of_isInt hint2 hint1 (by positivity) ?_
  have hpos : (0 : ℚ) < (errDen delta rs : ℚ) := by
    exact_mod_cast errDen_pos delta rs
  exact mul_lt_mul_of_pos_right hlt hpos

theorem reconcileFuel_spec (delta : ℚ) :
    ∀ (fuel : ℕ) (p : List RoleOutput × ℚ), RecOk p.1 p.2 → errMeasure delta p.1 p.2 < fuel →
      RecOk (reconcileFuel delta fuel p).1 (reconcileFuel delta fuel p).2 ∧
        findBest delta (reconcileFuel delta fuel p).2 (reconcileFuel delta fuel p).1 = none ∧
        ∃ n, (reconcileStep delta)^[n] p = reconcileFuel delta fuel p := by
  intro fuel
  induction fuel with
  | zero => intro p _ h; exact absurd h (Nat.not_lt_zero _)
  | succ m ih =>
    intro p hok hm
    cases hfb : findBest delta p.2 p.1 with
    | none =>
      have hred : reconcileFuel delta (m + 1) p = p := by
        obtain ⟨rs, a⟩ := p
        rw [reconcileFuel]
        simp only at hfb
        rw [hfb]
      rw [hred]
      exact ⟨hok, hfb, 0, rfl⟩
    | some c =>
      obtain ⟨i, adj⟩ := c
      have hred : reconcileFuel delta (m + 1) p =
          reconcileFuel delta m
            (applyBest p.1 i adj, contribSum (applyBest p.1 i adj)) := by
        obtain ⟨rs, a⟩ := p
        rw [reconcileFuel]
        simp only at hfb
        rw [hfb]
      have hok2 := (reconcile_applied hok hfb).1
      have hm2 : errMeasure delta (applyBest p.1 i adj)
          (contribSum (applyBest p.1 i adj)) < m :=
        lt_of_lt_of_le (errMeasure_lt hok hfb) (Nat.lt_succ_iff.mp hm)
      obtain ⟨h1, h2, n, hn⟩ :=
        ih (applyBest p.1 i adj, contribSum (applyBest p.1 i adj)) hok2 hm2
      rw [hred]
      refine ⟨h1, h2, n + 1, ?_⟩
      rw [Function.iterate_succ_apply]
      have hstep : reconcileStep delta p =
          (applyBest p.1 i adj, contribSum (applyBest p.1 i adj)) := by
        rw [reconcileStep, hfb]
      rw [hstep, hn]

theorem finalState_spec (input : HourCalculatorInput) :
    RecOk (finalState input).1 (finalState input).2 ∧
      findBest (input.targetRevenue - input.currentRevenue) (finalState input).2
          (finalState input).1 = none ∧
      ∃ n, (reconcileStep (input.targetRevenue - input.currentRevenue))^[n]
          (initState input) = finalState input :=
  reconcileFuel_spec (input.targetRevenue - input.currentRevenue)
    (errMeasure (input.targetRevenue - input.currentRevenue) (initState input).1
        (initState input).2 + 1)
    (initState input) (recOk_initState input) (Nat.lt_succ_self _)

theorem halfInt_mul_int {a b : ℚ} (ha : HalfInt a) (hb : IsInt b) : HalfInt (a * b) := by
  obtain ⟨x, rfl⟩ := ha
  obtain ⟨y, rfl⟩ := hb
  exact ⟨x * y, by push_cast; ring⟩

theorem reconcileFuel_nonneg (delta : ℚ) :
    ∀ (fuel : ℕ) (p : List RoleOutput × ℚ), (∀ r ∈ p.1, 0 ≤ r.hoursPerMember) →
      ∀ r ∈ (reconcileFuel delta fuel p).1, 0 ≤ r.hoursPerMember := by
  intro fuel
  induction fuel with
  | zero => intro p h; exact h
  | succ m ih =>
    intro p hp
    cases hfb : findBest delta p.2 p.1 with
    | none =>
      have hred : reconcileFuel delta (m + 1) p = p := by
        obtain ⟨rs, a⟩ := p
        rw [reconcileFuel]
        simp only at hfb
        rw [hfb]
      rw [hred]
      exact hp
    | some c =>
      obtain ⟨i, adj⟩ := c
      have hred : reconcileFuel delta (m + 1) p =
          reconcileFuel delta m
            (applyBest p.1 i adj, contribSum (applyBest p.1 i adj)) := by
        obtain ⟨rs, a⟩ := p
        rw [reconcileFuel]
        simp only at hfb
        rw [hfb]
      rw [hred]
      refine ih _ ?_
      obtain ⟨r, hget, _, _, hneg, _⟩ := findBest_some hfb
      intro x hx
      have happ : applyBest p.1 i adj =
          p.1.set i
            ⟨r.roleId, r.roleName, r.billingRate, r.memberCount, r.hoursPerMember + adj,
              (r.hoursPerMember + adj) * r.memberCount,
              (r.hoursPerMember + adj) * r.memberCount * r.billingRate⟩ := by
        rw [applyBest, hget]
      rw [happ] at hx
      rcases List.mem_or_eq_of_mem_set hx with hx2 | rfl
      · exact hp x hx2
      · exact not_lt.mp hneg

theorem matchesInput_applyBest {rin : List RoleInput} {rs : List RoleOutput} {i : ℕ} {adj : ℚ}
    (h : MatchesInput rin rs) : MatchesInput rin (applyBest rs i adj) := by
  rw [applyBest]
  cases hget : rs[i]? with
  | none => exact h
  | some r =>
    refine ⟨by rw [List.length_set]; exact h.1, ?_⟩
    intro k h1 h2
    have hlen : k < rs.length := by rw [List.length_set] at h1; exact h1
    simp only [List.get_eq_getElem, List.getElem_set]
    split
    · rename_i heq
      subst heq
      have hr : r = rs[i] := by
        rw [List.getElem?_eq_getElem hlen] at hget
        exact (Option.some.injEq _ _ ▸ hget.symm :)
      subst hr
      have h3 := h.2 i hlen h2
      simpa using h3
    · have h3 := h.2 k hlen h2
      simpa using h3

theorem matchesInput_reconcileFuel (delta : ℚ) {rin : List RoleInput} :
    ∀ (fuel : ℕ) (p : List RoleOutput × ℚ), MatchesInput rin p.1 →
      MatchesInput rin (reconcileFuel delta fuel p).1 := by
  intro fuel
  induction fuel with
  | zero => intro p h; exact h
  | succ m ih =>
    intro p hp
    cases hfb : findBest delta p.2 p.1 with
    | none =>
      have hred : reconcileFuel delta (m + 1) p = p := by
        obtain ⟨rs, a⟩ := p
        rw [reconcileFuel]
        simp only at hfb
        rw [hfb]
      rw [hred]
      exact hp
    | some c =>
      obtain ⟨i, adj⟩ := c
      have hred : reconcileFuel delta (m + 1) p =
          reconcileFuel delta m
            (applyBest p.1 i adj, contribSum (applyBest p.1 i adj)) := by
        obtain ⟨rs, a⟩ := p
        rw [reconcileFuel]
        simp only at hfb
        rw [hfb]
      rw [hred]
      exact ih _ (matchesInput_applyBest hp)

theorem matchesInput_initState (input : HourCalculatorInput) :
    MatchesInput input.roles (initState input).1 := by
  refine ⟨by simp [initState], ?_⟩
  intro k h1 h2
  simp only [initState] at h1 ⊢
  simp only [List.get_eq_getElem, List.getElem_map]
  obtain ⟨f1, f2, f3, f4⟩ := initRole_fields (input.targetRevenue - input.currentRevenue)
    (totalWeight input.roles) input.roles[k]
  exact ⟨f1, f2, f3, f4⟩

theorem matchesInput_finalState (input : HourCalculatorInput) :
    MatchesInput input.roles (finalState input).1 :=
  matchesInput_reconcileFuel _ _ _ (matchesInput_initState input)

theorem totalWeight_nonneg {roles : List RoleInput}
    (h : ∀ r ∈ roles, 0 ≤ r.billingRate ∧ 0 ≤ r.memberCount) : 0 ≤ totalWeight roles := by
  have aux : ∀ (l : List RoleInput) (s : ℚ), 0 ≤ s →
      (∀ r ∈ l, 0 ≤ r.billingRate ∧ 0 ≤ r.memberCount) →
      0 ≤ l.foldl (fun s r => s + r.billingRate * r.memberCount) s := by
    intro l
    induction l with
    | nil => intro s hs _; exact hs
    | cons a t ih =>
      intro s hs hl
      simp only [List.foldl_cons]
      have ha := hl a (by simp)
      refine ih _ (by nlinarith [ha.1, ha.2]) ?_
      intro r hr
      exact hl r (by simp [hr])
  exact aux roles 0 le_rfl h

theorem initRole_nonneg {delta tw : ℚ} {r : RoleInput} (hd : 0 ≤ delta) (htw : 0 ≤ tw)
    (hrate : 0 ≤ r.billingRate) : 0 ≤ (initRole delta tw r).hoursPerMember := by
  rw [initRole]
  split
  · exact le_rfl
  · rename_i hcond
    push_neg at hcond
    have htw2 : 0 < tw := lt_of_le_of_ne htw (Ne.symm hcond.1)
    have hrate2 : 0 < r.billingRate := lt_of_le_of_ne hrate (Ne.symm hcond.2)
    simp only
    split
    · rename_i hm
      refine snapToHalf_nonneg (div_nonneg (snapToHalf_nonneg ?_) (le_of_lt hm))
      have hnum : 0 ≤ delta * (r.billingRate * r.memberCount / tw) := by
        apply mul_nonneg hd
        apply div_nonneg _ (le_of_lt htw2)
        exact mul_nonneg (le_of_lt hrate2) (le_of_lt hm)
      exact div_nonneg hnum (le_of_lt hrate2)
    · exact le_rfl

/-! ## Claims about the hour allocator -/

/-- C6 (counterexample): with `targetRevenue = 0`, `currentRevenue = 1000`
and one role of rate 100 with one member — a negative revenue delta —
`calculateHours` returns `hoursPerMember = -10`, so the claim
"`hoursPerMember ≥ 0` for every input, including negative delta" is false
on the code. -/
theorem claim_C6_counterexample :
    ¬ ∀ r ∈ (calculateHours cxNegativeDeltaInput).roles, 0 ≤ r.hoursPerMember := by
  intro h
  have h2 := h ⟨.num 1, "r", 100, 1, -10, -10, -1000⟩ (by decide)
  norm_num at h2

/-- C6 (amended): for every input whose revenue delta is non-negative and
whose roles all have non-negative `billingRate` and `memberCount`, every
role in the output of `calculateHours` has `hoursPerMember ≥ 0`, the
reconciliation adjustments included. -/
theorem claim_C6_nonneg_hours (input : HourCalculatorInput)
    (hd : input.currentRevenue ≤ input.targetRevenue)
    (hroles : ∀ r ∈ input.roles, 0 ≤ r.billingRate ∧ 0 ≤ r.memberCount) :
    ∀ r ∈ (calculateHours input).roles, 0 ≤ r.hoursPerMember := by
  have hinit : ∀ r ∈ (initState input).1, 0 ≤ r.hoursPerMember := by
    intro r hr
    simp only [initState] at hr
    obtain ⟨r0, hr0, rfl⟩ := List.mem_map.mp hr
    exact initRole_nonneg (by linarith) (totalWeight_nonneg hroles) (hroles r0 hr0).1
  exact reconcileFuel_nonneg _ _ (initState input) hinit

/-- C6 witness: the amended theorem applied to the concrete scenario
input (delta 2000, one role of rate 100 with two members). -/
theorem claim_C6_nonneg_hours_witness :
    0 ≤ ((calculateHours scenarioInput).roles.get ⟨0, by decide⟩).hoursPerMember :=
  claim_C6_nonneg_hours scenarioInput (by norm_num [scenarioInput]) (by decide) _
    ((calculateHours scenarioInput).roles.get_mem 0 (by decide))

/-- C7: for every input, the reconciliation loop of `calculateHours`
terminates: finitely many `reconcileStep` iterations (each applying the
best improving `±0.5` adjustment) reach a state admitting no improving
adjustment, and `calculateHours` is the total function returning exactly
that state. -/
theorem claim_C7_reconciliation_terminates (input : HourCalculatorInput) :
    (∃ n : ℕ, (reconcileStep (input.targetRevenue - input.currentRevenue))^[n]
        (initState input) = finalState input) ∧
      findBest (input.targetRevenue - input.currentRevenue) (finalState input).2
          (finalState input).1 = none ∧
      calculateHours input =
        ⟨(finalState input).1, (finalState input).2,
          input.currentRevenue + (finalState input).2⟩ := by
  obtain ⟨_, h2, h3⟩ := finalState_spec input
  exact ⟨h3, h2, rfl⟩

/-- C8: the worked scenario — target 10000, current 8000, one role with
rate 100 and 2 members — yields hoursPerMember 10, totalHours 20,
revenueContribution 2000, totalDeltaRevenue 2000, achievedRevenue 10000,
and the reconciliation loop applies no adjustment (the final state is the
initial proportional allocation). -/
theorem claim_C8_scenario :
    calculateHours scenarioInput =
        ⟨[⟨.num 1, "dev", 100, 2, 10, 20, 2000⟩], 2000, 10000⟩ ∧
      finalState scenarioInput = initState scenarioInput ∧
      findBest 2000 (initState scenarioInput).2 (initState scenarioInput).1 = none := by
  refine ⟨by decide, by decide, by decide⟩

/-- C9: for every input, `calculateHours` returns exactly one output role
per input role, in order, with `roleId`, `roleName`, `billingRate` and
`memberCount` copied from the corresponding input role. -/
theorem claim_C9_frame (input : HourCalculatorInput) :
    MatchesInput input.roles (calculateHours input).roles :=
  matchesInput_finalState input

/-- C9 witness: the frame theorem instantiated on the concrete scenario
input, with the positional bound discharged at index 0. -/
theorem claim_C9_frame_witness :
    (calculateHours scenarioInput).roles.length = scenarioInput.roles.length ∧
      ((calculateHours scenarioInput).roles.get ⟨0, by decide⟩).roleId =
        (scenarioInput.roles.get ⟨0, by decide⟩).roleId := by
  have h := claim_C9_frame scenarioInput
  exact ⟨h.1, (h.2 0 (by decide) (by decide)).1⟩

theorem calculateHours_halfInt (input : HourCalculatorInput)
    (hm : ∀ r ∈ input.roles, IsInt r.memberCount) :
    ∀ r ∈ (calculateHours input).roles, HalfInt r.hoursPerMember ∧ HalfInt r.totalHours := by
  obtain ⟨hok, _, _⟩ := finalState_spec input
  have hmat := matchesInput_finalState input
  intro r hr
  have hr2 : r ∈ (finalState input).1 := hr
  obtain ⟨⟨k, hk⟩, hkr⟩ := List.mem_iff_get.mp hr2
  have hhalf := (hok.2 r hr2).1
  have hsync := (hok.2 r hr2).2.1
  have hk2 : k < input.roles.length := by rw [← hmat.1]; exact hk
  have hmemEq := (hmat.2 k hk hk2).2.2.2
  rw [hkr] at hmemEq
  have hint : IsInt r.memberCount := by
    rw [hmemEq]
    exact hm _ (input.roles.get_mem k hk2)
  exact ⟨hhalf, by rw [hsync]; exact halfInt_mul_int hhalf hint⟩

/-! ## Distributor lemmas -/

theorem capOf_rngSet (st : DState) (g : ℕ) (acc : String) (d : ℤ) :
    capOf { st with rng := g } acc d = capOf st acc d := rfl

theorem capOf_pushPlace (st : DState) (acc : String) (issue : JsId) (d : ℤ) (c toLog : ℚ)
    (acc2 : String) (d2 : ℤ) :
    capOf (pushPlace st acc issue d c toLog) acc2 d2 =
      if acc2 = acc ∧ d2 = d then c - toLog else capOf st acc2 d2 := by
  simp only [capOf, pushPlace, updCap]
  split <;> rfl

theorem placedSum_append (l1 l2 : List ScheduleEntry) (acc : String) (d : ℤ) :
    placedSum (l1 ++ l2) acc d = placedSum l1 acc d + placedSum l2 acc d := by
  simp [placedSum, List.filter_append]

theorem placedSum_place (acc2 : String) (d2 : ℤ) (acc : String) (issue : JsId) (d : ℤ)
    (h : ℚ) :
    placedSum [⟨acc, issue, d, h, false⟩] acc2 d2 =
      if acc = acc2 ∧ d = d2 then h else 0 := by
  by_cases hcase : acc = acc2 ∧ d = d2
  · simp [placedSum, hcase.1, hcase.2]
  · rw [if_neg hcase]
    rcases not_and_or.mp hcase with hne | hne <;> simp [placedSum, hne]

theorem placedSum_overflow (acc2 : String) (d2 : ℤ) (acc : String) (issue : JsId) (d : ℤ)
    (h : ℚ) : placedSum [⟨acc, issue, d, h, true⟩] acc2 d2 = 0 := by
  simp [placedSum]

theorem placedSum_nonneg {sched : List ScheduleEntry} {acc : String} {d : ℤ}
    (h : ∀ e ∈ sched, e.overflow = false → 0 < e.hours) : 0 ≤ placedSum sched acc d := by
  refine List.sum_nonneg ?_
  intro x hx
  obtain ⟨e, he, rfl⟩ := List.mem_map.mp hx
  have hmem := List.mem_of_mem_filter he
  have hprop := List.of_mem_filter he
  simp only [Bool.and_eq_true, beq_iff_eq, decide_eq_true_eq] at hprop
  exact le_of_lt (h e hmem hprop.2)

theorem stepRel_sweepDays {acc : String} {issue : JsId} {R : DState → ℚ → DState → ℚ → Prop}
    (h : StepRel acc issue R) :
    ∀ (days : List ℤ) (st : DState) (rem : ℚ),
      R st rem (sweepDays acc issue days st rem).1 (sweepDays acc issue days st rem).2 := by
  obtain ⟨hrefl, htrans, hrng, hplace, hover⟩ := h
  intro days
  induction days with
  | nil => intro st rem; exact hrefl st rem
  | cons d rest ih =>
    intro st rem
    simp only [sweepDays]
    split_ifs with h1 h2 h3
    · exact hrefl st rem
    · exact ih st rem
    · exact ih st rem
    · exact htrans _ _ _ _ _ _
        (hplace st rem d (capOf st acc d) rem rfl (not_le.mp h2) (not_le.mp h3)) (ih _ _)

set_option maxRecDepth 4000 in
theorem stepRel_pickedLoop {acc : String} {issue : JsId} {R : DState → ℚ → DState → ℚ → Prop}
    (h : StepRel acc issue R) :
    ∀ (days : List ℤ) (st : DState) (rem : ℚ),
      R st rem (pickedLoop acc issue days st rem).1 (pickedLoop acc issue days st rem).2 := by
  obtain ⟨hrefl, htrans, hrng, hplace, hover⟩ := h
  intro days
  induction days with
  | nil => intro st rem; exact hrefl st rem
  | cons d rest ih =>
    intro st rem
    simp only [pickedLoop]
    split_ifs with h1 h2 h3 h4 h5
    · exact hrefl st rem
    · exact ih st rem
    · exact ih st rem
    · exact htrans _ _ _ _ _ _
        (hplace st rem d (capOf st acc d) rem rfl (not_le.mp h2) (not_le.mp h4)) (ih _ _)
    · exact htrans _ _ _ _ _ _ (hrng st rem _) (ih _ _)
    · refine htrans _ _ _ _ _ _ (hrng st rem (mulberryNext st.rng).1) ?_
      refine htrans _ _ _ _ _ _
        (hplace { st with rng := (mulberryNext st.rng).1 } rem d (capOf st acc d)
          (max 1 (rem * (1 / 5 + (mulberryNext st.rng).2 * (3 / 5))))
          (capOf_rngSet st (mulberryNext st.rng).1 acc d).symm
          (not_le.mp h2) (not_le.mp h5)) (ih _ _)

theorem stepRel_shuffleSweepPhase {acc : String} {issue : JsId}
    {R : DState → ℚ → DState → ℚ → Prop} (h : StepRel acc issue R) (days : List ℤ)
    (p : DState × ℚ) :
    R p.1 p.2 (shuffleSweepPhase acc issue days p).1 (shuffleSweepPhase acc issue days p).2 := by
  obtain ⟨hrefl, htrans, hrng, hplace, hover⟩ := h
  simp only [shuffleSweepPhase]
  split_ifs with h1
  · exact htrans _ _ _ _ _ _ (hrng p.1 p.2 _)
      (stepRel_sweepDays ⟨hrefl, htrans, hrng, hplace, hover⟩ _ _ _)
  · exact hrefl p.1 p.2

theorem stepRel_goodPhase {acc : String} {issue : JsId} {R : DState → ℚ → DState → ℚ → Prop}
    (h : StepRel acc issue R) (tot : ℚ) (goodDays : List ℤ) (st : DState) :
    R st tot (goodPhase acc issue tot goodDays st).1 (goodPhase acc issue tot goodDays st).2 := by
  simp only [goodPhase]
  refine h.2.1 _ _ _ _ _ _ ?_ (stepRel_shuffleSweepPhase h _ _)
  exact h.2.1 _ _ _ _ _ _ (h.2.2.1 st tot _) (stepRel_pickedLoop h _ _ _)

theorem stepRel_overflowPhase {acc : String} {issue : JsId}
    {R : DState → ℚ → DState → ℚ → Prop} (h : StepRel acc issue R) (wd : List ℤ)
    (p : DState × ℚ) :
    ∃ rem2, R p.1 p.2 (overflowPhase acc issue wd p) rem2 := by
  obtain ⟨hrefl, htrans, hrng, hplace, hover⟩ := h
  simp only [overflowPhase]
  split_ifs with h1
  · split
    · exact ⟨p.2, hrng p.1 p.2 _⟩
    · exact ⟨p.2, htrans _ _ _ _ _ _ (hrng p.1 p.2 _)
        (hover { p.1 with rng := (fisherYatesShuffle wd p.1.rng).2 } p.2 _)⟩
  · exact ⟨p.2, hrefl p.1 p.2⟩

theorem stepRel_processAssignment {R : DState → ℚ → DState → ℚ → Prop} (wd : List ℤ)
    (st : DState) (a : Assignment) (h : StepRel a.accountId a.issueId R) :
    ∃ rem2, R st a.totalHours (processAssignment wd st a) rem2 := by
  simp only [processAssignment]
  by_cases h0 : a.totalHours ≤ 0
  · rw [if_pos h0]
    exact ⟨a.totalHours, h.1 st a.totalHours⟩
  rw [if_neg h0]
  by_cases h1 : ((wd.filter fun d => decide (1 ≤ capOf st a.accountId d)).isEmpty &&
      (wd.filter fun d =>
        decide (0 < capOf st a.accountId d) && decide (capOf st a.accountId d < 1)).isEmpty) = true
  · rw [if_pos h1]
    cases wd with
    | nil => exact ⟨a.totalHours, h.1 st a.totalHours⟩
    | cons d tl => exact ⟨a.totalHours, h.2.2.2.2 st a.totalHours d⟩
  · rw [if_neg h1]
    have hgood : R st a.totalHours
        (if (wd.filter fun d => decide (1 ≤ capOf st a.accountId d)).isEmpty then
            (st, a.totalHours)
          else goodPhase a.accountId a.issueId a.totalHours
            (wd.filter fun d => decide (1 ≤ capOf st a.accountId d)) st).1
        (if (wd.filter fun d => decide (1 ≤ capOf st a.accountId d)).isEmpty then
            (st, a.totalHours)
          else goodPhase a.accountId a.issueId a.totalHours
            (wd.filter fun d => decide (1 ≤ capOf st a.accountId d)) st).2 := by
      split_ifs with h2
      · exact h.1 st a.totalHours
      · exact stepRel_goodPhase h _ _ _
    have htiny := stepRel_shuffleSweepPhase h
      (wd.filter fun d => decide (0 < capOf st a.accountId d) && decide (capOf st a.accountId d < 1))
      (if (wd.filter fun d => decide (1 ≤ capOf st a.accountId d)).isEmpty then
          (st, a.totalHours)
        else goodPhase a.accountId a.issueId a.totalHours
          (wd.filter fun d => decide (1 ≤ capOf st a.accountId d)) st)
    obtain ⟨rem2, hov⟩ := stepRel_overflowPhase h wd
      (shuffleSweepPhase a.accountId a.issueId
        (wd.filter fun d => decide (0 < capOf st a.accountId d) && decide (capOf st a.accountId d < 1))
        (if (wd.filter fun d => decide (1 ≤ capOf st a.accountId d)).isEmpty then
            (st, a.totalHours)
          else goodPhase a.accountId a.issueId a.totalHours
            (wd.filter fun d => decide (1 ≤ capOf st a.accountId d)) st))
    exact ⟨rem2, h.2.1 _ _ _ _ _ _ (h.2.1 _ _ _ _ _ _ hgood htiny) hov⟩

theorem sched_rngSet (st : DState) (g : ℕ) : ({ st with rng := g } : DState).sched = st.sched :=
  rfl

theorem sched_pushPlace (st : DState) (acc : String) (issue : JsId) (d : ℤ) (c toLog : ℚ) :
    (pushPlace st acc issue d c toLog).sched = st.sched ++ [⟨acc, issue, d, toLog, false⟩] :=
  rfl

theorem sched_pushOverflow (st : DState) (acc : String) (issue : JsId) (d : ℤ) (h : ℚ) :
    (pushOverflow st acc issue d h).sched = st.sched ++ [⟨acc, issue, d, h, true⟩] :=
  rfl

theorem capOf_pushOverflow (st : DState) (acc : String) (issue : JsId) (d : ℤ) (h : ℚ)
    (acc2 : String) (d2 : ℤ) : capOf (pushOverflow st acc issue d h) acc2 d2 = capOf st acc2 d2 :=
  rfl

theorem snapToHalf_min_le {c x : ℚ} (hc : HalfInt c) : snapToHalf (min c x) ≤ c := by
  have h1 := snapToHalf_mono (min_le_left c x)
  rwa [snapToHalf_of_halfInt hc] at h1

theorem stepRel_relProg (acc : String) (issue : JsId) : StepRel acc issue relProg := by
  refine ⟨?_, ?_, ?_, ?_, ?_⟩
  · exact fun st rem => ⟨le_refl _, fun hne => absurd rfl hne⟩
  · intro s1 r1 s2 r2 s3 r3 h12 h23
    refine ⟨le_trans h12.1 h23.1, fun hne => ?_⟩
    by_cases h32 : r3 = r2
    · subst h32
      exact lt_of_lt_of_le (h12.2 hne) h23.1
    · exact lt_of_le_of_lt h12.1 (h23.2 h32)
  · intro st rem g
    exact ⟨le_refl _, fun hne => absurd rfl hne⟩
  · intro st rem d c x _ _ _
    rw [relProg, sched_pushPlace]
    have hlen : st.sched.length < (st.sched ++ [(⟨acc, issue, d, snapToHalf (min c x), false⟩ :
        ScheduleEntry)]).length := by
      simp
    exact ⟨le_of_lt hlen, fun _ => hlen⟩
  · intro st rem d
    rw [relProg, sched_pushOverflow]
    have hlen : st.sched.length <
        (st.sched ++ [(⟨acc, issue, d, rem, true⟩ : ScheduleEntry)]).length := by simp
    exact ⟨le_of_lt hlen, fun _ => hlen⟩

theorem stepRel_relHalf (acc : String) (issue : JsId) : StepRel acc issue relHalf := by
  refine ⟨?_, ?_, ?_, ?_, ?_⟩
  · exact fun st rem h => h
  · exact fun s1 r1 s2 r2 s3 r3 h12 h23 h => h23 (h12 h)
  · intro st rem g h
    exact h
  · intro st rem d c x _ _ _ h
    obtain ⟨hs, hr⟩ := h
    have hh : HalfInt (rem - snapToHalf (min c x)) :=
      halfInt_sub hr (halfInt_snapToHalf _)
    refine ⟨?_, ?_⟩
    · intro e he
      rw [sched_pushPlace] at he
      rcases List.mem_append.mp he with he2 | he2
      · exact hs e he2
      · rw [List.mem_singleton.mp he2]
        exact halfInt_snapToHalf _
    · rw [round2_of_halfInt hh]
      exact hh
  · intro st rem d h
    obtain ⟨hs, hr⟩ := h
    refine ⟨?_, hr⟩
    intro e he
    rw [sched_pushOverflow] at he
    rcases List.mem_append.mp he with he2 | he2
    · exact hs e he2
    · rw [List.mem_singleton.mp he2]
      exact hr

theorem stepRel_relCap (acc : String) (issue : JsId) (wls : List TempoWorklog) :
    StepRel acc issue (relCap wls) := by
  refine ⟨?_, ?_, ?_, ?_, ?_⟩
  · exact fun st rem h => h
  · exact fun s1 r1 s2 r2 s3 r3 h12 h23 h => h23 (h12 h)
  · intro st rem g hinv
    obtain ⟨h1, h2⟩ := hinv
    constructor
    · intro a2 d2
      rw [capOf_rngSet, sched_rngSet]
      exact h1 a2 d2
    · rw [sched_rngSet]
      exact h2
  · intro st rem d c x hc h0 ht hinv
    obtain ⟨h1, h2⟩ := hinv
    have hcHalf : HalfInt c := by rw [hc]; exact (h1 acc d).2.1
    have htLe : snapToHalf (min c x) ≤ c := snapToHalf_min_le hcHalf
    constructor
    · intro a2 d2
      rw [capOf_pushPlace, sched_pushPlace, placedSum_append, placedSum_place]
      by_cases hcase : a2 = acc ∧ d2 = d
      · obtain ⟨rfl, rfl⟩ := hcase
        rw [if_pos ⟨rfl, rfl⟩, if_pos ⟨rfl, rfl⟩]
        refine ⟨by linarith, halfInt_sub hcHalf (halfInt_snapToHalf _), ?_⟩
        intro _
        have htrig := (h1 a2 d2).2.2 (Or.inl (hc ▸ h0))
        rw [← hc] at htrig
        linarith
      · rw [if_neg hcase, if_neg (fun hh => hcase ⟨hh.1.symm, hh.2.symm⟩), add_zero]
        exact h1 a2 d2
    · intro e he hov
      rw [sched_pushPlace] at he
      rcases List.mem_append.mp he with he2 | he2
      · exact h2 e he2 hov
      · have he3 := List.mem_singleton.mp he2
        subst he3
        exact ht
  · intro st rem d hinv
    obtain ⟨h1, h2⟩ := hinv
    constructor
    · intro a2 d2
      rw [capOf_pushOverflow, sched_pushOverflow, placedSum_append, placedSum_overflow,
        add_zero]
      exact h1 a2 d2
    · intro e he hov
      rw [sched_pushOverflow] at he
      rcases List.mem_append.mp he with he2 | he2
      · exact h2 e he2 hov
      · have he3 := List.mem_singleton.mp he2
        subst he3
        simp at hov

theorem existingHoursFor_append (l1 l2 : List TempoWorklog) (acc : String) (d : ℤ) :
    existingHoursFor (l1 ++ l2) acc d =
      existingHoursFor l1 acc d + existingHoursFor l2 acc d := by
  simp [existingHoursFor, List.filter_append]

theorem existingHoursFor_single (wl : TempoWorklog) (acc : String) (d : ℤ) :
    existingHoursFor [wl] acc d =
      if wl.author.accountId = acc ∧ wl.startDate = d then wl.timeSpentSeconds / 3600
      else 0 := by
  by_cases h : wl.author.accountId = acc ∧ wl.startDate = d
  · simp [existingHoursFor, h.1, h.2]
  · rw [if_neg h]
    rcases not_and_or.mp h with h2 | h2 <;> simp [existingHoursFor, h2]

theorem updCap_hit (m : CapMap) (acc : String) (d : ℤ) (v : ℚ) :
    (updCap m acc d v) acc d = some v := by
  rw [updCap]
  exact if_pos ⟨rfl, rfl⟩

theorem updCap_miss (m : CapMap) (acc : String) (d : ℤ) (v : ℚ) (a2 : String) (d2 : ℤ)
    (h : ¬(a2 = acc ∧ d2 = d)) : (updCap m acc d v) a2 d2 = m a2 d2 := by
  rw [updCap]
  exact if_neg h

theorem buildCapacity_spec {wls : List TempoWorklog}
    (hw : ∀ wl ∈ wls, 0 ≤ wl.timeSpentSeconds ∧ HalfInt (wl.timeSpentSeconds / 3600)) :
    ∀ acc d, 0 ≤ ((buildCapacity wls) acc d).getD 8 ∧
      HalfInt (((buildCapacity wls) acc d).getD 8) ∧
      (0 < ((buildCapacity wls) acc d).getD 8 →
        existingHoursFor wls acc d = 8 - ((buildCapacity wls) acc d).getD 8) := by
  have aux : ∀ (l l0 : List TempoWorklog) (m0 : CapMap),
      (∀ wl ∈ l, 0 ≤ wl.timeSpentSeconds ∧ HalfInt (wl.timeSpentSeconds / 3600)) →
      (∀ acc d, 0 ≤ (m0 acc d).getD 8 ∧ HalfInt ((m0 acc d).getD 8) ∧
        (0 < (m0 acc d).getD 8 → existingHoursFor l0 acc d = 8 - (m0 acc d).getD 8)) →
      ∀ acc d,
        letI m := l.foldl
          (fun m wl =>
            let acc := wl.author.accountId
            let hours := wl.timeSpentSeconds / 3600
            let v := (m acc wl.startDate).getD 8 - hours
            updCap m acc wl.startDate (if v < 0 then 0 else v)) m0
        0 ≤ (m acc d).getD 8 ∧ HalfInt ((m acc d).getD 8) ∧
          (0 < (m acc d).getD 8 →
            existingHoursFor (l0 ++ l) acc d = 8 - (m acc d).getD 8) := by
    intro l
    induction l with
    | nil =>
      intro l0 m0 _ hm acc d
      simpa using hm acc d
    | cons wl t ih =>
      intro l0 m0 hl hm acc d
      have hwl := hl wl (by simp)
      have hstep : ∀ acc d,
          0 ≤ ((updCap m0 wl.author.accountId wl.startDate
            (if (m0 wl.author.accountId wl.startDate).getD 8 - wl.timeSpentSeconds / 3600 < 0
              then 0
              else (m0 wl.author.accountId wl.startDate).getD 8 -
                wl.timeSpentSeconds / 3600)) acc d).getD 8 ∧
          HalfInt (((updCap m0 wl.author.accountId wl.startDate
            (if (m0 wl.author.accountId wl.startDate).getD 8 - wl.timeSpentSeconds / 3600 < 0
              then 0
              else (m0 wl.author.accountId wl.startDate).getD 8 -
                wl.timeSpentSeconds / 3600)) acc d).getD 8) ∧
          (0 < ((updCap m0 wl.author.accountId wl.startDate
            (if (m0 wl.author.accountId wl.startDate).getD 8 - wl.timeSpentSeconds / 3600 < 0
              then 0
              else (m0 wl.author.accountId wl.startDate).getD 8 -
                wl.timeSpentSeconds / 3600)) acc d).getD 8 →
            existingHoursFor (l0 ++ [wl]) acc d =
              8 - ((updCap m0 wl.author.accountId wl.startDate
                (if (m0 wl.author.accountId wl.startDate).getD 8 -
                    wl.timeSpentSeconds / 3600 < 0
                  then 0
                  else (m0 wl.author.accountId wl.startDate).getD 8 -
                    wl.timeSpentSeconds / 3600)) acc d).getD 8) := by
        intro acc d
        rw [existingHoursFor_append, existingHoursFor_single]
        by_cases hcase : acc = wl.author.accountId ∧ d = wl.startDate
        · rw [hcase.1, hcase.2, updCap_hit, Option.getD_some,
            if_pos (show wl.author.accountId = wl.author.accountId ∧
              wl.startDate = wl.startDate from ⟨rfl, rfl⟩)]
          obtain ⟨hm1, hm2, hm3⟩ := hm wl.author.accountId wl.startDate
          split_ifs with hclamp
          · exact ⟨le_rfl, halfInt_zero, fun hcontra => absurd hcontra (by norm_num)⟩
          · refine ⟨not_lt.mp hclamp, halfInt_sub hm2 hwl.2, ?_⟩
            intro hpos
            have hold : 0 < (m0 wl.author.accountId wl.startDate).getD 8 := by
              have := hwl.1
              have hhours : 0 ≤ wl.timeSpentSeconds / 3600 := by positivity
              linarith
            rw [hm3 hold]
            ring
        · rw [updCap_miss _ _ _ _ _ _ hcase,
            if_neg (fun hh => hcase ⟨hh.1.symm, hh.2.symm⟩), add_zero]
          exact hm acc d
      have hres := ih (l0 ++ [wl]) _ (fun w hwm => hl w (by simp [hwm])) hstep acc d
      simpa [List.foldl_cons] using hres
  intro acc d
  have hbase : ∀ acc d, 0 ≤ ((emptyCap : CapMap) acc d).getD 8 ∧
      HalfInt (((emptyCap : CapMap) acc d).getD 8) ∧
      (0 < ((emptyCap : CapMap) acc d).getD 8 →
        existingHoursFor [] acc d = 8 - ((emptyCap : CapMap) acc d).getD 8) := by
    intro acc d
    refine ⟨by norm_num [emptyCap], by rw [emptyCap]; exact halfInt_eight, ?_⟩
    intro _
    simp [existingHoursFor, emptyCap]
  have h := aux wls [] emptyCap hw hbase acc d
  simpa [buildCapacity] using h

theorem placedSum_single_self (e : ScheduleEntry) (he : e.overflow = false) :
    placedSum [e] e.accountId e.date = e.hours := by
  obtain ⟨a, i, dd, h, ov⟩ := e
  simp only at he
  simp [placedSum, he]

theorem capInv_initial {wls : List TempoWorklog}
    (hw : ∀ wl ∈ wls, 0 ≤ wl.timeSpentSeconds ∧ HalfInt (wl.timeSpentSeconds / 3600)) (s : ℕ) :
    CapInv wls ⟨buildCapacity wls, [], s⟩ := by
  constructor
  · intro acc d
    have h := buildCapacity_spec hw acc d
    refine ⟨h.1, h.2.1, ?_⟩
    intro htrig
    have hps : placedSum ([] : List ScheduleEntry) acc d = 0 := rfl
    rcases htrig with hpos | hne
    · rw [hps, add_zero]
      exact h.2.2 hpos
    · exact absurd hps hne
  · intro e he
    simp at he

theorem capInv_distributeCore {wls : List TempoWorklog}
    (hw : ∀ wl ∈ wls, 0 ≤ wl.timeSpentSeconds ∧ HalfInt (wl.timeSpentSeconds / 3600))
    (seed : ℤ) (asg : List Assignment) (lo hi : ℤ) :
    CapInv wls (distributeCore seed asg lo hi wls) := by
  rw [distributeCore]
  have aux : ∀ (l : List Assignment) (st : DState), CapInv wls st →
      CapInv wls (l.foldl (processAssignment (workingDaysBetween lo hi)) st) := by
    intro l
    induction l with
    | nil => intro st h; exact h
    | cons a t ih =>
      intro st h
      rw [List.foldl_cons]
      refine ih _ ?_
      obtain ⟨rem2, hrel⟩ := stepRel_processAssignment (workingDaysBetween lo hi) st a
        (stepRel_relCap a.accountId a.issueId wls)
      exact hrel h
  exact aux asg _ (capInv_initial hw (toUint32 seed))

/-! ## Claims about the calendar distributor -/

/-- C2 (counterexample): one Monday with 5.7 h (20520 s) already logged
leaves 2.3 h of capacity; `snapToHalf(min(2.3, 2.5)) = 2.5`, so the code
books 2.5 h as a non-overflow entry and the cumulative total for that
account and date reaches 8.2 h — the claimed 8.0 h bound is false. -/
theorem claim_C2_counterexample :
    (distributeWorklogs 0 cxCapacityInput).schedule = [⟨"a", .num 7, 1, 5 / 2, false⟩] ∧
      existingHoursFor cxCapacityInput.existingWorklogs "a" 1 +
          placedSum ((distributeWorklogs 0 cxCapacityInput).schedule.take 1) "a" 1 = 41 / 5 ∧
      (8 : ℚ) < 41 / 5 := by
  exact ⟨by decide, by decide, by norm_num⟩

/-- C2 (amended): provided every existing worklog has non-negative hours
that are multiples of 0.5, then for every non-overflow schedule entry the
existing hours for its account and date plus the hours of that entry and
of every earlier same-call non-overflow entry for the same account and
date total at most 8. -/
theorem claim_C2_capacity (now : ℤ) (input : DistributorInput)
    (hw : ∀ wl ∈ input.existingWorklogs,
      0 ≤ wl.timeSpentSeconds ∧ HalfInt (wl.timeSpentSeconds / 3600))
    (k : ℕ) (hk : k < (distributeWorklogs now input).schedule.length)
    (hov : ((distributeWorklogs now input).schedule.get ⟨k, hk⟩).overflow = false) :
    existingHoursFor input.existingWorklogs
        ((distributeWorklogs now input).schedule.get ⟨k, hk⟩).accountId
        ((distributeWorklogs now input).schedule.get ⟨k, hk⟩).date +
      placedSum ((distributeWorklogs now input).schedule.take (k + 1))
        ((distributeWorklogs now input).schedule.get ⟨k, hk⟩).accountId
        ((distributeWorklogs now input).schedule.get ⟨k, hk⟩).date ≤ 8 := by
  have hinv : CapInv input.existingWorklogs
      (distributeCore (input.seed.getD now) input.assignments input.dFrom input.dTo
        input.existingWorklogs) :=
    capInv_distributeCore hw _ _ _ _
  have hsched : (distributeWorklogs now input).schedule =
      (distributeCore (input.seed.getD now) input.assignments input.dFrom input.dTo
        input.existingWorklogs).sched := rfl
  obtain ⟨h1, h2⟩ := hinv
  set sched := (distributeWorklogs now input).schedule with hdef
  set e := sched.get ⟨k, hk⟩ with hedef
  have he_mem : e ∈ sched := sched.get_mem k hk
  have hpos_e : 0 < e.hours := by
    refine h2 e ?_ hov
    rw [← hsched]
    exact he_mem
  have hsplit : placedSum sched e.accountId e.date =
      placedSum (sched.take (k + 1)) e.accountId e.date +
        placedSum (sched.drop (k + 1)) e.accountId e.date := by
    conv_lhs => rw [← List.take_append_drop (k + 1) sched]
    rw [placedSum_append]
  have hdrop_nonneg : 0 ≤ placedSum (sched.drop (k + 1)) e.accountId e.date := by
    refine placedSum_nonneg ?_
    intro x hx hxov
    refine h2 x ?_ hxov
    rw [← hsched]
    exact List.drop_subset _ _ hx
  have htake_pos : 0 < placedSum (sched.take (k + 1)) e.accountId e.date := by
    have hconcat : sched.take (k + 1) = sched.take k ++ [e] := by
      rw [← List.take_concat_get sched k hk, List.concat_eq_append]
      rfl
    rw [hconcat, placedSum_append, placedSum_single_self e hov]
    have htk : 0 ≤ placedSum (sched.take k) e.accountId e.date := by
      refine placedSum_nonneg ?_
      intro x hx hxov
      refine h2 x ?_ hxov
      rw [← hsched]
      exact List.take_subset _ _ hx
    linarith
  have hfull_ne : placedSum sched e.accountId e.date ≠ 0 := by
    rw [hsplit]
    intro hcontra
    linarith
  have heq := (h1 e.accountId e.date).2.2 (Or.inr (by rw [hsched] at hfull_ne; exact hfull_ne))
  have hcap_nonneg := (h1 e.accountId e.date).1
  rw [← hsched] at heq
  rw [hsplit] at heq
  linarith

/-- C2 witness: the amended theorem applied to one 4-hour assignment on
an empty Monday; the single entry yields `0 + 4 ≤ 8`. -/
theorem claim_C2_capacity_witness :
    existingHoursFor sampleDistInput.existingWorklogs
        ((distributeWorklogs 0 sampleDistInput).schedule.get ⟨0, by decide⟩).accountId
        ((distributeWorklogs 0 sampleDistInput).schedule.get ⟨0, by decide⟩).date +
      placedSum ((distributeWorklogs 0 sampleDistInput).schedule.take 1)
        ((distributeWorklogs 0 sampleDistInput).schedule.get ⟨0, by decide⟩).accountId
        ((distributeWorklogs 0 sampleDistInput).schedule.get ⟨0, by decide⟩).date ≤ 8 :=
  claim_C2_capacity 0 sampleDistInput (by decide) 0 (by decide) (by decide)

/-- C1: when the input carries an explicit seed, the output of
`distributeWorklogs` does not depend on the ambient clock (`Date.now()`,
the `now` parameter): two invocations with identical inputs return
identical outputs — the same entries with the same fields in the same
order.  (In this embedding the whole computation is a pure function of
the inputs; the only hidden input of the source, `Date.now()`, is the
explicit `now` parameter, used solely when `seed` is absent.) -/
theorem claim_C1_determinism (n1 n2 : ℤ) (input : DistributorInput) (s : ℤ)
    (h : input.seed = some s) :
    distributeWorklogs n1 input = distributeWorklogs n2 input := by
  simp only [distributeWorklogs, h, Option.getD_some]

/-- C1 witness: the determinism theorem applied to a concrete input with
seed 42 and two different clock values. -/
theorem claim_C1_determinism_witness :
    sampleDistInput.seed = some 42 ∧
      distributeWorklogs 0 sampleDistInput = distributeWorklogs 99 sampleDistInput :=
  ⟨rfl, claim_C1_determinism 0 99 sampleDistInput 42 rfl⟩

/-- C10: for every input (with `to ≥ from`), `distributeWorklogs` returns
one worklog body per schedule entry, in the same order, with `issueId`
and `authorAccountId` copied from the entry, `startDate` the entry's
date, `startTime` fixed to `"09:00:00"`, and `timeSpentSeconds` and
`billableSeconds` both `round(hours * 3600)`. -/
theorem claim_C10_worklog_bodies (now : ℤ) (input : DistributorInput)
    (hrange : input.dFrom ≤ input.dTo) :
    (distributeWorklogs now input).worklogBodies.length =
        (distributeWorklogs now input).schedule.length ∧
      ∀ (k : ℕ) (h1 : k < (distributeWorklogs now input).schedule.length)
        (h2 : k < (distributeWorklogs now input).worklogBodies.length),
        ((distributeWorklogs now input).worklogBodies.get ⟨k, h2⟩).issueId =
            ((distributeWorklogs now input).schedule.get ⟨k, h1⟩).issueId ∧
          ((distributeWorklogs now input).worklogBodies.get ⟨k, h2⟩).authorAccountId =
            ((distributeWorklogs now input).schedule.get ⟨k, h1⟩).accountId ∧
          ((distributeWorklogs now input).worklogBodies.get ⟨k, h2⟩).startDate =
            ((distributeWorklogs now input).schedule.get ⟨k, h1⟩).date ∧
          ((distributeWorklogs now input).worklogBodies.get ⟨k, h2⟩).startTime = "09:00:00" ∧
          ((distributeWorklogs now input).worklogBodies.get ⟨k, h2⟩).timeSpentSeconds =
            jsRound (((distributeWorklogs now input).schedule.get ⟨k, h1⟩).hours * 3600) ∧
          ((distributeWorklogs now input).worklogBodies.get ⟨k, h2⟩).billableSeconds =
            jsRound (((distributeWorklogs now input).schedule.get ⟨k, h1⟩).hours * 3600) := by
  have hb : (distributeWorklogs now input).worklogBodies =
      (distributeWorklogs now input).schedule.map entryBody := rfl
  refine ⟨by rw [hb, List.length_map], ?_⟩
  intro k h1 h2
  have hget : (distributeWorklogs now input).worklogBodies.get ⟨k, h2⟩ =
      entryBody ((distributeWorklogs now input).schedule.get ⟨k, h1⟩) := by
    have hq : (distributeWorklogs now input).worklogBodies[k]? =
        some (entryBody ((distributeWorklogs now input).schedule.get ⟨k, h1⟩)) := by
      rw [hb, List.getElem?_map, List.getElem?_eq_getElem h1]
      rfl
    have h3 := List.getElem?_eq_getElem h2
    rw [h3] at hq
    rw [List.get_eq_getElem]
    exact Option.some.inj hq
  rw [hget]
  exact ⟨rfl, rfl, rfl, rfl, rfl, rfl⟩

/-- C10 witness: the bodies theorem applied to a concrete one-entry run. -/
theorem claim_C10_worklog_bodies_witness :
    (distributeWorklogs 0 sampleDistInput).worklogBodies.length =
        (distributeWorklogs 0 sampleDistInput).schedule.length ∧
      ((distributeWorklogs 0 sampleDistInput).worklogBodies.get ⟨0, by decide⟩).timeSpentSeconds =
        jsRound (((distributeWorklogs 0 sampleDistInput).schedule.get ⟨0, by decide⟩).hours *
          3600) := by
  have h := claim_C10_worklog_bodies 0 sampleDistInput (by decide)
  exact ⟨h.1, (h.2 0 (by decide) (by decide)).2.2.2.2.1⟩

theorem targetDayFor_none {A wd : List ℤ} (h : targetDayFor A wd = none) : wd = [] := by
  cases A with
  | nil =>
    rw [targetDayFor] at h
    exact List.head?_eq_none_iff.mp h
  | cons x xs =>
    rw [targetDayFor] at h
    exact absurd h (by simp)

theorem relProg_ifGood (acc : String) (issue : JsId) (tot : ℚ) (goodDays : List ℤ)
    (st : DState) :
    relProg st tot
      (if goodDays.isEmpty then (st, tot) else goodPhase acc issue tot goodDays st).1
      (if goodDays.isEmpty then (st, tot) else goodPhase acc issue tot goodDays st).2 := by
  split_ifs with h
  · exact (stepRel_relProg acc issue).1 st tot
  · exact stepRel_goodPhase (stepRel_relProg acc issue) tot goodDays st

theorem overflowPhase_grows {acc : String} {issue : JsId} {wd : List ℤ} {p : DState × ℚ}
    {st0 : DState} {tot : ℚ} (hwd : wd ≠ []) (hrel : relProg st0 tot p.1 p.2)
    (hne0 : 0 < tot) :
    st0.sched.length < (overflowPhase acc issue wd p).sched.length := by
  simp only [overflowPhase]
  split_ifs with hrem
  · split
    · rename_i heq
      exact absurd (targetDayFor_none heq) hwd
    · simp only [sched_pushOverflow, sched_rngSet, List.length_append, List.length_singleton]
      have h1 := hrel.1
      omega
  · exact hrel.2 fun hcontra => hrem (hcontra ▸ hne0)

/-- C4 (counterexample): a range consisting of a single Saturday has no
business days, and an assignment with positive `totalHours` then produces
no `ScheduleEntry` at all — the claimed always-at-least-one-entry
guarantee (via the overflow path) fails for ranges without business
days. -/
theorem claim_C4_counterexample :
    cxWeekendInput.assignments = [⟨"a", .num 7, 4⟩] ∧ (0 : ℚ) < 4 ∧
      workingDaysBetween cxWeekendInput.dFrom cxWeekendInput.dTo = [] ∧
      (distributeWorklogs 0 cxWeekendInput).schedule = [] :=
  ⟨by decide, by norm_num, by decide, by decide⟩

/-- C4 (amended): an assignment with `totalHours ≤ 0` produces no
schedule entry; provided the range contains at least one business day,
each assignment with `totalHours > 0` produces at least one entry (the
schedule strictly grows), and a run in which all assignments are positive
produces at least one entry per assignment. -/
theorem claim_C4_entry_production :
    (∀ (wd : List ℤ) (st : DState) (a : Assignment),
        a.totalHours ≤ 0 → processAssignment wd st a = st) ∧
      (∀ (wd : List ℤ) (st : DState) (a : Assignment), wd ≠ [] → 0 < a.totalHours →
        st.sched.length < (processAssignment wd st a).sched.length) ∧
      ∀ (now : ℤ) (input : DistributorInput),
        workingDaysBetween input.dFrom input.dTo ≠ [] →
        (∀ a ∈ input.assignments, 0 < a.totalHours) →
        input.assignments.length ≤ (distributeWorklogs now input).schedule.length := by
  have hskip : ∀ (wd : List ℤ) (st : DState) (a : Assignment),
      a.totalHours ≤ 0 → processAssignment wd st a = st := by
    intro wd st a h
    simp only [processAssignment]
    rw [if_pos h]
  have hgrow : ∀ (wd : List ℤ) (st : DState) (a : Assignment), wd ≠ [] → 0 < a.totalHours →
      st.sched.length < (processAssignment wd st a).sched.length := by
    intro wd st a hwd hpos
    simp only [processAssignment]
    rw [if_neg (not_le.mpr hpos)]
    by_cases h1 : ((wd.filter fun d => decide (1 ≤ capOf st a.accountId d)).isEmpty &&
        (wd.filter fun d => decide (0 < capOf st a.accountId d) &&
          decide (capOf st a.accountId d < 1)).isEmpty) = true
    · rw [if_pos h1]
      cases wd with
      | nil => exact absurd rfl hwd
      | cons d tl => simp [sched_pushOverflow]
    · rw [if_neg h1]
      exact overflowPhase_grows hwd
        ((stepRel_relProg a.accountId a.issueId).2.1 _ _ _ _ _ _
          (relProg_ifGood _ _ _ _ _)
          (stepRel_shuffleSweepPhase (stepRel_relProg a.accountId a.issueId) _ _)) hpos
  refine ⟨hskip, hgrow, ?_⟩
  intro now input hwdne hall
  have hfold : ∀ (l : List Assignment) (st : DState), (∀ a ∈ l, 0 < a.totalHours) →
      st.sched.length + l.length ≤
        (l.foldl (processAssignment (workingDaysBetween input.dFrom input.dTo))
          st).sched.length := by
    intro l
    induction l with
    | nil => intro st _; simp
    | cons a t ih =>
      intro st hl
      rw [List.foldl_cons]
      have h1 := hgrow _ st a hwdne (hl a (by simp))
      have h2 := ih (processAssignment (workingDaysBetween input.dFrom input.dTo) st a)
        (fun x hx => hl x (by simp [hx]))
      simp only [List.length_cons]
      omega
  have hrun := hfold input.assignments
    ⟨buildCapacity input.existingWorklogs, [], toUint32 (input.seed.getD now)⟩ hall
  have hsched : (distributeWorklogs now input).schedule =
      (input.assignments.foldl (processAssignment (workingDaysBetween input.dFrom input.dTo))
        ⟨buildCapacity input.existingWorklogs, [], toUint32 (input.seed.getD now)⟩).sched := rfl
  rw [hsched]
  simpa using hrun

/-- C4 witness: the amended theorem applied to a one-assignment run on a
Monday; the hypotheses hold and the schedule has at least one entry. -/
theorem claim_C4_entry_production_witness :
    1 ≤ (distributeWorklogs 0 sampleDistInput).schedule.length := by
  have h := claim_C4_entry_production.2.2 0 sampleDistInput (by decide) (by decide)
  simpa using h

/-- C5 (counterexample): Monday full capacity, Tuesday 1 h left, one 8 h
assignment, seed 1.  The run books 4 h on Monday, exhausts Tuesday, and
then places the 3 h remainder as an overflow entry — while Monday, a
business day in range, still has 4 h of remaining capacity (step 8 never
writes the capacity map, so the final map at Monday equals the map at the
moment of the overflow placement).  Overflow is therefore not restricted
to the every-day-exhausted situation the claim describes. -/
theorem claim_C5_counterexample :
    (distributeCore 1 cxOverflowInput.assignments 1 2 cxOverflowInput.existingWorklogs).sched =
        [⟨"a", .num 7, 1, 4, false⟩, ⟨"a", .num 7, 2, 1, false⟩, ⟨"a", .num 7, 1, 3, true⟩] ∧
      capOf (distributeCore 1 cxOverflowInput.assignments 1 2
          cxOverflowInput.existingWorklogs) "a" 1 = 4 ∧
      (1 : ℤ) ∈ workingDaysBetween 1 2 ∧ (0 : ℚ) < 4 :=
  ⟨by decide, by decide, by decide, by norm_num⟩

/-- C5 (amended): the all-days-at-capacity entry path is overflow-minimal:
when an assignment starts with no good days and no tiny days, every
business day in range indeed has remaining capacity ≤ 0 for the
assignment's account, and (for positive hours) the assignment produces
exactly one overflow entry carrying its full `totalHours` on the first
business day.  (The step-8 remainder overflow does not have this
property; see the counterexample.) -/
theorem claim_C5_overflow_minimality (wd : List ℤ) (st : DState) (a : Assignment)
    (hg : wd.filter (fun d => decide (1 ≤ capOf st a.accountId d)) = [])
    (ht : wd.filter (fun d => decide (0 < capOf st a.accountId d) &&
      decide (capOf st a.accountId d < 1)) = []) :
    (∀ d ∈ wd, capOf st a.accountId d ≤ 0) ∧
      ∀ (d0 : ℤ) (tl : List ℤ), wd = d0 :: tl → 0 < a.totalHours →
        processAssignment wd st a = pushOverflow st a.accountId a.issueId d0 a.totalHours := by
  constructor
  · intro d hd
    by_contra hcontra
    push_neg at hcontra
    by_cases hone : 1 ≤ capOf st a.accountId d
    · have hmem : d ∈ wd.filter (fun d => decide (1 ≤ capOf st a.accountId d)) :=
        List.mem_filter.mpr ⟨hd, by simpa using hone⟩
      rw [hg] at hmem
      simp at hmem
    · have hmem : d ∈ wd.filter (fun d => decide (0 < capOf st a.accountId d) &&
          decide (capOf st a.accountId d < 1)) :=
        List.mem_filter.mpr ⟨hd, by simp [hcontra, not_le.mp hone]⟩
      rw [ht] at hmem
      simp at hmem
  · intro d0 tl hwd hpos
    subst hwd
    simp only [processAssignment]
    rw [if_neg (not_le.mpr hpos), if_pos (by rw [hg, ht]; rfl)]

/-- C5 witness: the amended theorem applied to a fully booked Monday with
a 3-hour assignment: the day's capacity is ≤ 0 and the whole amount goes
to a single overflow entry on that day. -/
theorem claim_C5_overflow_minimality_witness :
    capOf wAtCapacityState "a" 1 ≤ 0 ∧
      processAssignment [1] wAtCapacityState wAtCapacityAssignment =
        pushOverflow wAtCapacityState "a" (.num 7) 1 3 := by
  have h := claim_C5_overflow_minimality [1] wAtCapacityState wAtCapacityAssignment
    (by decide) (by decide)
  exact ⟨h.1 1 (by decide), h.2 1 [] rfl (by decide)⟩

/-- C3: for every allocator input whose roles have integer member counts
and every distributor input whose assignments carry half-hour-multiple
totals, every `hoursPerMember` and `totalHours` of the allocator output
and every `ScheduleEntry.hours` of the distributor output (overflow
entries included) is an exact multiple of 0.5. -/
theorem claim_C3_half_hour (cinput : HourCalculatorInput)
    (hm : ∀ r ∈ cinput.roles, IsInt r.memberCount) (now : ℤ) (dinput : DistributorInput)
    (ha : ∀ a ∈ dinput.assignments, HalfInt a.totalHours) :
    (∀ r ∈ (calculateHours cinput).roles,
        HalfInt r.hoursPerMember ∧ HalfInt r.totalHours) ∧
      ∀ e ∈ (distributeWorklogs now dinput).schedule, HalfInt e.hours := by
  refine ⟨calculateHours_halfInt cinput hm, ?_⟩
  have aux : ∀ (l : List Assignment) (st : DState), HalfSched st →
      (∀ a ∈ l, HalfInt a.totalHours) →
      HalfSched (l.foldl (processAssignment (workingDaysBetween dinput.dFrom dinput.dTo))
        st) := by
    intro l
    induction l with
    | nil => intro st h _; exact h
    | cons a t ih =>
      intro st h hl
      rw [List.foldl_cons]
      refine ih _ ?_ fun x hx => hl x (by simp [hx])
      obtain ⟨rem2, hrel⟩ := stepRel_processAssignment
        (workingDaysBetween dinput.dFrom dinput.dTo) st a
        (stepRel_relHalf a.accountId a.issueId)
      exact (hrel ⟨h, hl a (by simp)⟩).1
  have hinit : HalfSched ⟨buildCapacity dinput.existingWorklogs, [],
      toUint32 (dinput.seed.getD now)⟩ := by
    intro e he
    simp at he
  have h := aux dinput.assignments _ hinit ha
  intro e he
  exact h e he

/-- C3 witness: the half-hour theorem applied to the worked scenario and
a concrete one-assignment distribution. -/
theorem claim_C3_half_hour_witness :
    (∀ r ∈ (calculateHours scenarioInput).roles,
        HalfInt r.hoursPerMember ∧ HalfInt r.totalHours) ∧
      ∀ e ∈ (distributeWorklogs 0 sampleDistInput).schedule, HalfInt e.hours :=
  claim_C3_half_hour scenarioInput (by decide) 0 sampleDistInput (by decide)
